import Mathlib

/-!
# Mastergoal engine: formal verification of the game-manager and MCTS layers

A shallow embedding, in Lean 4, of the parts of the Mastergoal repository
(`backend/game_manager.py`, `backend/tournament_system/*`) that the verified
claims are about.  Pure data is modelled by Lean structures, Python `float`
rewards by `ℚ`, and the mutation performed by the Python code by explicit
state passing.  Code of the repository that is not available (the core
`mastergoalGame.py`, `position.py`, `player.py`, `ball.py`,
`linear_evaluator.py`) is modelled from the specification; every such
definition carries a doc comment starting with `Modelled from the spec:`.
-/

/-- One of the two sides, `MastergoalGame.LEFT` / `MastergoalGame.RIGHT`.
Modelled from the spec: **Team.** One of `{LEFT, RIGHT}`. -/
inductive Team where
  | LEFT : Team
  | RIGHT : Team
deriving DecidableEq, Repr

/-- Modelled from the spec: **Position.** A pair `(row, col)`; two positions
are equal exactly when their coordinates are (Python `Position.__eq__`). -/
structure Pos where
  row : Int
  col : Int
deriving DecidableEq, Repr

/-- The kind tag of a move tuple: the Python strings `'move'` and `'kick'`. -/
inductive MoveType where
  | move : MoveType
  | kick : MoveType
deriving DecidableEq, Repr

/-- A legal-move triple `(kind, from, to)` as produced by
`get_legal_moves` and consumed by the executor and the MCTS layer. -/
structure Move where
  ty : MoveType
  src : Pos
  dst : Pos
deriving DecidableEq, Repr

/-- A player, mirroring `Player(position, team, player_id, is_goalkeeper)`. -/
structure PlayerS where
  team : Team
  pid : Nat
  pos : Pos
  gk : Bool
deriving DecidableEq, Repr

/-- The observable fields of a `MastergoalGame` instance, exactly the fields
that `game_cloner.clone_game` and `mcts_AI.restore_game_state` copy:
`level, LEFT_goals, RIGHT_goals, current_team, last_possession_team,
passes_count, turn_count, skip_next_turn, ball, players`. -/
structure GameS where
  level : Nat
  LEFT_goals : Nat
  RIGHT_goals : Nat
  current_team : Team
  last_possession_team : Team
  passes_count : Nat
  turn_count : Nat
  skip_next_turn : Bool
  ball : Pos
  players : List PlayerS
deriving DecidableEq, Repr

/-! ## C5 — `GameManager.check_game_status` -/

/-- The value returned by the game's internal `is_game_over()`:
`1` (LEFT won), `-1` (RIGHT won), `0.1` (draw), anything else (not over),
as they are discriminated in `GameManager.check_game_status`. -/
inductive InternalResult where
  | leftWon : InternalResult
  | rightWon : InternalResult
  | drawCap : InternalResult
  | notOver : InternalResult
deriving DecidableEq, Repr

/-- The `{'ended': ..., 'winner': ...}` dictionary built by
`GameManager.check_game_status`. -/
structure Status where
  ended : Bool
  winner : Option String
deriving DecidableEq, Repr

/-- The fallback of `check_game_status`: map the value of
`game.is_game_over()` to a status dictionary
(`1` → LEFT, `-1` → RIGHT, `0.1` → DRAW, else → not ended). -/
def internal_status (internal : InternalResult) : Status :=
  match internal with
  | .leftWon => ⟨true, some "LEFT"⟩
  | .rightWon => ⟨true, some "RIGHT"⟩
  | .drawCap => ⟨true, some "DRAW"⟩
  | .notOver => ⟨false, none⟩

/-- The part of `check_game_status` after the goal overrides: the
`max_turns` override, then the internal fallback. -/
def check_game_status_after_goals (turn_count : Nat)
    (internal : InternalResult) (max_turns_enabled : Bool)
    (max_turns : Option Nat) : Status :=
  if max_turns_enabled ∧ (∃ m, max_turns = some m ∧ turn_count ≥ m) then
    ⟨true, some "DRAW"⟩
  else internal_status internal

/-- `GameManager.check_game_status(game, win_goals, max_turns_enabled,
max_turns)`.  `internal` stands for the value of the call
`game.is_game_over()` (core game code, dispatched on exactly as in the
source: `1`, `-1`, `0.1`, else). -/
def check_game_status (LEFT_goals RIGHT_goals turn_count : Nat)
    (internal : InternalResult)
    (win_goals : Option Nat) (max_turns_enabled : Bool)
    (max_turns : Option Nat) : Status :=
  match win_goals with
  | some w =>
      if LEFT_goals ≥ w then ⟨true, some "LEFT"⟩
      else if RIGHT_goals ≥ w then ⟨true, some "RIGHT"⟩
      else check_game_status_after_goals turn_count internal max_turns_enabled max_turns
  | none => check_game_status_after_goals turn_count internal max_turns_enabled max_turns

/-! ## C2 — `RootParallelMCTSAI._merge_trees` -/

/-- The statistics of one immediate child of a worker's root node:
its `move`, `visits` and `total_reward` (`MCTSNode` fields). -/
structure ChildS where
  move : Move
  visits : Nat
  total_reward : ℚ
deriving DecidableEq, Repr

/-- The part of a worker root relevant to `_merge_trees`: its own
statistics and its immediate children. -/
structure WRoot where
  visits : Nat
  total_reward : ℚ
  children : List ChildS
deriving DecidableEq, Repr

/-- The `merged_child.visits += child.visits;
merged_child.total_reward += child.total_reward` update of `_merge_trees`,
applied to the merged child holding `c`'s move and the identity
elsewhere. -/
def updFor (c x : ChildS) : ChildS :=
  if x.move = c.move then
    { x with visits := x.visits + c.visits,
             total_reward := x.total_reward + c.total_reward }
  else x

/-- The body of the inner loop of `_merge_trees`: merge one worker child
into the accumulated merged-children list.  When the move is already
present (`move in move_to_merged_child`) the merged child carrying it is
updated in place; otherwise a fresh merged child (initialised with
`visits = 0`, `total_reward = 0.0` by the `MCTSNode` constructor) is
appended and immediately updated. -/
def addChild (acc : List ChildS) (c : ChildS) : List ChildS :=
  if acc.any (fun m => m.move = c.move) then acc.map (updFor c)
  else acc ++ [⟨c.move, 0 + c.visits, 0 + c.total_reward⟩]

/-- The body of the outer loop of `_merge_trees`: add one worker root's
statistics to the merged root and merge each of its children in order. -/
def mergeStep (merged root : WRoot) : WRoot :=
  { visits := merged.visits + root.visits,
    total_reward := merged.total_reward + root.total_reward,
    children := root.children.foldl addChild merged.children }

/-- `RootParallelMCTSAI._merge_trees(root_nodes, base_game)`: `None` for an
empty worker list, otherwise a merged root starting from fresh statistics
(`MCTSNode(base_game)`), folding every worker root in order. -/
def merge_trees (root_nodes : List WRoot) : Option WRoot :=
  if root_nodes = [] then none
  else some (root_nodes.foldl mergeStep ⟨0, 0, []⟩)

/-- Sum of the `visits` of the children of `cs` that carry move `m`. -/
def visitsFor (m : Move) (cs : List ChildS) : Nat :=
  ((cs.filter (fun c => c.move = m)).map (fun c => c.visits)).sum

/-- Sum of the `total_reward` of the children of `cs` that carry move `m`. -/
def rewardFor (m : Move) (cs : List ChildS) : ℚ :=
  ((cs.filter (fun c => c.move = m)).map (fun c => c.total_reward)).sum

/-- All immediate root children of a list of worker roots, in worker order. -/
def allChildren (root_nodes : List WRoot) : List ChildS :=
  (root_nodes.map (fun r => r.children)).flatten

/-- The moves carried by a list of children, in order. -/
def movesOf (cs : List ChildS) : List Move :=
  cs.map (fun c => c.move)

/-! ## C4 — final-move strategies (`strategies/final_move.py`) -/

/-- Python's `max(xs, key=k)` on a non-empty list: the first element whose
key is maximal (`max` keeps the current best and replaces it only on a
strictly greater key). -/
def pyMaxBy (k : ChildS → WithBot ℚ) : List ChildS → Option ChildS
  | [] => none
  | x :: xs => some (xs.foldl (fun best c => if k best < k c then c else best) x)

/-- The key of `MaxChildStrategy.select_move`:
`child.total_reward / child.visits if child.visits > 0 else float('-inf')`. -/
def maxChildKey (c : ChildS) : WithBot ℚ :=
  if 0 < c.visits then ((c.total_reward / (c.visits : ℚ) : ℚ) : WithBot ℚ) else ⊥

/-- `MaxChildStrategy.select_move`: the move of the child with highest
average reward (unvisited children count as `-inf`). -/
def maxChild_select_move (children : List ChildS) : Option Move :=
  (pyMaxBy maxChildKey children).map (fun c => c.move)

/-- `RobustChildStrategy.select_move`: the move of the child with the most
visits. -/
def robustChild_select_move (children : List ChildS) : Option Move :=
  (pyMaxBy (fun c => ((c.visits : ℚ) : WithBot ℚ)) children).map (fun c => c.move)

/-- The average reward of a visited child, as paired with it in
`RobustMaxChildStrategy.select_move`. -/
def avgReward (c : ChildS) : ℚ := c.total_reward / (c.visits : ℚ)

/-- `RobustMaxChildStrategy.select_move(root, game)` with parameter
`top_percentage`: keep the visited children, stably sort them by average
reward in descending order, keep the top
`max(1, int(len * top_percentage))`, and among those return the move of the
child with the most visits. -/
def robustMax_select_move (top_percentage : ℚ) (children : List ChildS) :
    Option Move :=
  let visited := children.filter (fun c => 0 < c.visits)
  if visited = [] then none
  else
    let sorted := visited.mergeSort (fun a b => avgReward b ≤ avgReward a)
    let top_count := max 1 (Int.toNat ⌊(visited.length : ℚ) * top_percentage⌋)
    let top := sorted.take top_count
    (pyMaxBy (fun c => ((c.visits : ℚ) : WithBot ℚ)) top).map (fun c => c.move)

/-! ## C7 — `StandardBackpropagation.backpropagate` -/

/-- An MCTS tree (`MCTSNode` with its `children`): statistics, the move
that produced the node, and the subtrees.  Parent pointers are implicit:
the parent chain of a node is the path from the root down to it. -/
inductive MTree where
  | node (visits : Nat) (total_reward : ℚ) (mv : Option Move)
      (children : List MTree) : MTree
deriving Repr

/-- The `visits` field of the tree's root node. -/
def MTree.visits : MTree → Nat
  | .node v _ _ _ => v

/-- The `total_reward` field of the tree's root node. -/
def MTree.total_reward : MTree → ℚ
  | .node _ w _ _ => w

/-- The `move` field of the tree's root node. -/
def MTree.mv : MTree → Option Move
  | .node _ _ m _ => m

/-- The `children` field of the tree's root node. -/
def MTree.children : MTree → List MTree
  | .node _ _ _ cs => cs

/-- Replace the `i`-th element of a list, leaving the list unchanged when
`i` is out of range. -/
def setAt : List MTree → Nat → MTree → List MTree
  | [], _, _ => []
  | _ :: xs, 0, t => t :: xs
  | x :: xs, n + 1, t => x :: setAt xs n t

/-- The subtree reached from `t` by following the child indices in `p`
(the node whose parent chain is exactly the nodes along `p`). -/
def subtreeAt : MTree → List Nat → Option MTree
  | t, [] => some t
  | t, i :: p => match t.children.get? i with
    | some c => subtreeAt c p
    | none => none

/-- The pair `(visits, total_reward)` of a node, the statistics
backpropagation updates. -/
def MTree.stats (t : MTree) : Nat × ℚ := (t.visits, t.total_reward)

/-- The tree effect of `StandardBackpropagation.backpropagate(node,
reward)`, with the node addressed by its path `p` from the root: the
Python loop walks the parent chain from the leaf to the root doing
`visits += 1; total_reward += reward`; equivalently, top down, every node
along `p` (both ends included) is updated. -/
def backpropagate : MTree → List Nat → ℚ → MTree
  | .node v w m cs, [], r => .node (v + 1) (w + r) m cs
  | .node v w m cs, i :: p, r =>
      match cs.get? i with
      | some c => .node (v + 1) (w + r) m (setAt cs i (backpropagate c p r))
      | none => .node (v + 1) (w + r) m cs

/-- The `update_history` calls issued by the same loop: the source calls
`self.ph_selector.update_history(current, reward)` exactly on the first
iteration (`is_first`), i.e. on the starting node itself (the node at
path `p`), and only when a Progressive History selector is attached
(`hasPH`, the `hasattr(self.ph_selector, 'update_history')` test). -/
def backpropCalls (hasPH : Bool) (root : MTree) (p : List Nat) (r : ℚ) :
    List (MTree × ℚ) :=
  if hasPH then
    match subtreeAt root p with
    | some n => [(n, r)]
    | none => []
  else []

/-! ## C9 — `RandomPlayout.simulate` / `calculate_reward` -/

/-- The non-`None` values `get_winner()` can take. -/
inductive Winner where
  | team (t : Team) : Winner
  | draw : Winner
deriving DecidableEq, Repr

/-- Modelled from the spec: the core game's `get_winner()` (code missing
from the sources).  Per §4.D and §6, the game is over when a side reaches
`win_goals` (default 2) or when the internal turn cap (e.g. a 200-turn
draw) fires, and the winner component ranges over
`{LEFT, RIGHT, DRAW, None}`; the drawn outcome must be a non-`None` marker
for the playout loop in `RandomPlayout.simulate` to stop at the cap. -/
def get_winner_spec (g : GameS) : Option Winner :=
  if g.LEFT_goals ≥ 2 then some (.team .LEFT)
  else if g.RIGHT_goals ≥ 2 then some (.team .RIGHT)
  else if g.turn_count ≥ 200 then some .draw
  else none

/-- `RandomPlayout.calculate_reward(game)` for AI team `AI_team`, applied
to `winner = game.get_winner()`: `1.0` if `winner == self.AI_team`,
`0.0` if `winner is None`, `-1.0` otherwise. -/
def calculate_reward (AI_team : Team) (winner : Option Winner) : ℚ :=
  if winner = some (.team AI_team) then 1
  else if winner = none then 0
  else -1

/-- The playout loop of `RandomPlayout.simulate`: while
`game.get_winner() is None`, pick a legal move (`pick` stands for
`random.choice`, fed the step index) and execute it (`exec` stands for the
core game's `execute_move` / `execute_kick` dispatch); stop when there is
a winner or no legal move.  `fuel` bounds the number of loop iterations
modelled. -/
def playout (legal : GameS → List Move) (exec : GameS → Move → GameS)
    (pick : Nat → List Move → Move) : Nat → Nat → GameS → GameS
  | 0, _, g => g
  | fuel + 1, step, g =>
      match get_winner_spec g with
      | some _ => g
      | none =>
          match legal g with
          | [] => g
          | m :: ms => playout legal exec pick fuel (step + 1)
              (exec g (pick step (m :: ms)))

/-- `RandomPlayout.simulate(node)`: run the playout loop on a clone of the
node's state and return `calculate_reward` of the final position. -/
def simulate (AI_team : Team) (legal : GameS → List Move)
    (exec : GameS → Move → GameS) (pick : Nat → List Move → Move)
    (fuel : Nat) (g : GameS) : ℚ :=
  calculate_reward AI_team (get_winner_spec (playout legal exec pick fuel 0 g))

/-! ## C10 — `RandomExpansion.expand` and `MCTSNode.is_fully_expanded` -/

/-- The part of an MCTS node that `RandomExpansion.expand` and
`MCTSNode.is_fully_expanded` read: the node's legal-move list
(`node.game_state.get_legal_moves()`, deterministic for a fixed state) and
the moves of its current children. -/
structure ENode where
  legal : List Move
  childMoves : List Move
deriving DecidableEq, Repr

/-- `MCTSNode.is_fully_expanded`:
`len(self.children) == len(self.game_state.get_legal_moves())`. -/
def is_fully_expanded (n : ENode) : Bool :=
  n.childMoves.length = n.legal.length

/-- `RandomExpansion.expand(node)` restricted to its effect on the node's
child list: compute the unexplored legal moves; when none remain, return an
existing child and leave the node unchanged; otherwise pick one unexplored
move (`choice` stands for `random.choice`, reduced modulo the number of
candidates) and append exactly one child carrying it. -/
def expand (n : ENode) (choice : Nat) : ENode :=
  let unexplored := n.legal.filter (fun m => m ∉ n.childMoves)
  match unexplored with
  | [] => n
  | u :: us =>
      { n with childMoves :=
          n.childMoves ++ [(u :: us).get ⟨choice % (u :: us).length,
            Nat.mod_lt _ (Nat.succ_pos _)⟩] }

/-- The tree invariant maintained by the engine (claim C10): the children
of a node carry pairwise-distinct moves, each of them legal. -/
def ENodeInv (n : ENode) : Prop :=
  n.childMoves.Nodup ∧ ∀ m ∈ n.childMoves, m ∈ n.legal

/-! ## C3 — `GameManager.execute_move` -/

/-- `GameManager.execute_move(game, move_type, from_pos, to_pos)`.
The game state threads explicitly: the result is `((success, message),
resulting game)`.  `legal` stands for `game.get_legal_moves()` and
`execMove` / `execKick` for the core game's `execute_move` /
`execute_kick` (core game code; they return a truthy result and the
mutated game). -/
def gm_execute_move (legal : GameS → List Move)
    (execMove : GameS → Pos → Pos → Bool × GameS)
    (execKick : GameS → Pos → Bool × GameS)
    (g : GameS) (move_type : MoveType) (from_pos to_pos : Pos) :
    (Bool × String) × GameS :=
  let mv : Move := ⟨move_type, from_pos, to_pos⟩
  if mv ∉ legal g then ((false, "Illegal move"), g)
  else
    match move_type with
    | .move =>
        let (result, g') := execMove g from_pos to_pos
        if result then ((true, "Move executed successfully"), g')
        else ((false, "Move execution failed"), g')
    | .kick =>
        let (result, g') := execKick g to_pos
        if result then ((true, "Move executed successfully"), g')
        else ((false, "Move execution failed"), g')

/-! ## C1 — `get_best_move` state preservation -/

/-- The serialisable snapshot returned by the core game's
`get_game_state()`. -/
structure Snapshot where
  level : Nat
  LEFT_goals : Nat
  RIGHT_goals : Nat
  current_team : Team
  passes_count : Nat
  turn_count : Nat
  skip_next_turn : Bool
  ball_position : Int × Int
  players : List (Team × Nat × Int × Int × Bool)
deriving DecidableEq, Repr

/-- Modelled from the spec: the core game's `get_game_state()` (code
missing from the sources).  §6 fixes the snapshot's contents: level,
current_team, LEFT_goals, RIGHT_goals, ball cell, ordered list of
`(team, id, row, col, is_goalkeeper)`, passes_count, turn_count,
skip_next_turn and the (constant) board dimensions.  Notably it has no
`last_possession_team` entry, matching the defensive
`state.get('last_possession_team', game.LEFT)` in
`restore_game_state`. -/
def get_game_state_spec (g : GameS) : Snapshot :=
  { level := g.level
    LEFT_goals := g.LEFT_goals
    RIGHT_goals := g.RIGHT_goals
    current_team := g.current_team
    passes_count := g.passes_count
    turn_count := g.turn_count
    skip_next_turn := g.skip_next_turn
    ball_position := (g.ball.row, g.ball.col)
    players := g.players.map (fun p => (p.team, p.pid, p.pos.row, p.pos.col, p.gk)) }

/-- `restore_game_state(game, state)` from `mcts_AI.py`: write every
snapshot field back into the game; `last_possession_team` is set to
`state.get('last_possession_team', game.LEFT)`, which is the constant
`LEFT` because the snapshot (see `get_game_state_spec`) carries no such
key. -/
def restore_game_state (g : GameS) (s : Snapshot) : GameS :=
  { g with
    level := s.level
    LEFT_goals := s.LEFT_goals
    RIGHT_goals := s.RIGHT_goals
    current_team := s.current_team
    last_possession_team := Team.LEFT
    passes_count := s.passes_count
    turn_count := s.turn_count
    skip_next_turn := s.skip_next_turn
    ball := ⟨s.ball_position.1, s.ball_position.2⟩
    players := s.players.map (fun q => ⟨q.1, q.2.1, ⟨q.2.2.1, q.2.2.2.1⟩, q.2.2.2.2⟩) }

/-- The effect of `RootParallelMCTSAI.get_best_move(team)` and
`MCTSAI.get_best_move(team)` on the engine's game (`self.game`),
extracted from the source: if it is not `team`'s turn the method returns
`None` immediately; on the opening-book path (`use_opening_book`,
`turn_count == 0`, `team == LEFT`) the source executes
`self.game.turn_count += 1` and returns the book move without any
restore; otherwise it snapshots the game, runs the whole search
exclusively on `clone_game` copies (the worker roots, the merge base and
the playouts all receive clones, and the final-move strategies only read
`self.game`), and finally calls
`restore_game_state(self.game, original_state)`. -/
def get_best_move_state (g : GameS) (team : Team) (use_opening_book : Bool) :
    GameS :=
  if g.current_team ≠ team then g
  else if use_opening_book ∧ g.turn_count = 0 ∧ team = Team.LEFT then
    { g with turn_count := g.turn_count + 1 }
  else restore_game_state g (get_game_state_spec g)

/-! ## C8 — `MinimaxAgent.__init__` weight loading -/

/-- The nested `best_individual` object of a weights document; `none`
fields stand for absent keys. -/
structure BestIndividual where
  weights : Option (List ℚ)
  depth : Option Nat
deriving DecidableEq, Repr

/-- A parsed weights JSON document; `none` fields stand for absent keys. -/
structure WeightsDoc where
  weights : Option (List ℚ)
  minimax_depth : Option Nat
  best_individual : Option BestIndividual
deriving DecidableEq, Repr

/-- The weight-extraction logic of `MinimaxAgent.__init__`: a top-level
`weights` key wins, else `best_individual.weights`, else
`ValueError("No weights found ...")`. -/
def minimax_load_weights (doc : WeightsDoc) : Except String (List ℚ) :=
  match doc.weights with
  | some ws => .ok ws
  | none =>
      match doc.best_individual with
      | some bi =>
          match bi.weights with
          | some ws => .ok ws
          | none => .error "No weights found"
      | none => .error "No weights found"

/-- The depth-extraction logic of `MinimaxAgent.__init__`: an explicit
`depth` argument overrides the file; otherwise a top-level
`minimax_depth` key, else `best_individual.depth`, else
`ValueError("No minimax_depth found ...")`. -/
def minimax_load_depth (doc : WeightsDoc) (depth : Option Nat) :
    Except String Nat :=
  match depth with
  | some d => .ok d
  | none =>
      match doc.minimax_depth with
      | some d => .ok d
      | none =>
          match doc.best_individual with
          | some bi =>
              match bi.depth with
              | some d => .ok d
              | none => .error "No minimax_depth found"
          | none => .error "No minimax_depth found"

/-- Modelled from the spec: the length check performed when
`LinearEvaluator(level, weights)` is constructed (code missing from the
sources).  §6: "the number of weights must match the level's feature
vector length or loading fails"; `featureLen` is the level's feature
vector length. -/
def linear_evaluator_check (featureLen : Nat) (ws : List ℚ) :
    Except String Unit :=
  if ws.length = featureLen then .ok () else .error "weight count mismatch"

/-- `MinimaxAgent.__init__(name, level, weights_file, depth)` restricted
to its loading logic: extract the weights, then the depth, then construct
the evaluator (whose length check may fail).  Returns the agent's
`(weights, depth)` on success. -/
def minimax_agent_init (featureLen : Nat) (doc : WeightsDoc)
    (depth : Option Nat) : Except String (List ℚ × Nat) := do
  let ws ← minimax_load_weights doc
  let d ← minimax_load_depth doc depth
  let _ ← linear_evaluator_check featureLen ws
  pure (ws, d)

/-! ## C6 — `clone_game` as heap allocation -/

/-- A heap object: a `Position`, a `Ball` (holding a reference to its
position object), a `Player` (likewise), or an unallocated cell. -/
inductive Obj where
  | posO (row col : Int) : Obj
  | ballO (posTag : Nat) : Obj
  | playerO (posTag : Nat) (team : Team) (pid : Nat) (gk : Bool) : Obj
  | noneO : Obj
deriving DecidableEq, Repr

/-- A heap: object tags (identities) to objects. -/
def World : Type := Nat → Obj

/-- Heap update at one tag: the model of mutating (or allocating) the
object with identity `t`. -/
def wset (w : World) (t : Nat) (o : Obj) : World :=
  fun x => if x = t then o else w x

/-- Read a `Position` object. -/
def readPos (w : World) (t : Nat) : Option Pos :=
  match w t with
  | .posO r c => some ⟨r, c⟩
  | _ => none

/-- Read a `Ball` object through to its position. -/
def readBall (w : World) (t : Nat) : Option Pos :=
  match w t with
  | .ballO pt => readPos w pt
  | _ => none

/-- Read a `Player` object through to its position. -/
def readPlayer (w : World) (t : Nat) : Option PlayerS :=
  match w t with
  | .playerO pt team pid gk => (readPos w pt).map (fun p => ⟨team, pid, p, gk⟩)
  | _ => none

/-- A game instance whose `ball` and `players` attributes are references
into the heap; the scalar attributes are immutable Python values. -/
structure HGame where
  level : Nat
  LEFT_goals : Nat
  RIGHT_goals : Nat
  current_team : Team
  last_possession_team : Team
  passes_count : Nat
  turn_count : Nat
  skip_next_turn : Bool
  ballTag : Nat
  playerTags : List Nat

/-- The observable value of a heap-allocated game: every field of claim
C6, with the ball and the players read through the heap. -/
def snapshotH (w : World) (g : HGame) : Option GameS := do
  let b ← readBall w g.ballTag
  let ps ← g.playerTags.mapM (readPlayer w)
  pure ⟨g.level, g.LEFT_goals, g.RIGHT_goals, g.current_team,
    g.last_possession_team, g.passes_count, g.turn_count, g.skip_next_turn,
    b, ps⟩

/-- The position tag held by a ball or player object at `t` (empty for
other objects). -/
def posTagOf (w : World) (t : Nat) : List Nat :=
  match w t with
  | .ballO pt => [pt]
  | .playerO pt _ _ _ => [pt]
  | _ => []

/-- The heap footprint of a game: the tags of its ball, its players, and
their position objects — every mutable object reachable from it. -/
def tagsOf (w : World) (g : HGame) : List Nat :=
  (g.ballTag :: posTagOf w g.ballTag) ++
    g.playerTags.flatMap (fun t => t :: posTagOf w t)

/-- The player-cloning loop of `clone_game`:
`Player(Position(p.position.row, p.position.col), p.team, p.player_id,
p.is_goalkeeper)` for each player, each iteration allocating a fresh
`Position` and a fresh `Player`.  Returns the heap, the new players'
tags, and the next free tag. -/
def allocPlayers (w : World) : List PlayerS → Nat → World × List Nat × Nat
  | [], fresh => (w, [], fresh)
  | p :: ps, fresh =>
      let w1 := wset (wset w fresh (.posO p.pos.row p.pos.col)) (fresh + 1)
        (.playerO fresh p.team p.pid p.gk)
      let (w2, ts, f') := allocPlayers w1 ps (fresh + 2)
      (w2, (fresh + 1) :: ts, f')

/-- `game_cloner.clone_game(game)` on the heap model: read every field of
`game` (through the heap), then build the clone from freshly allocated
objects only — `Ball(Position(row, col))` and one
`Player(Position(row, col), ...)` per player.  The `MastergoalGame(level)`
constructor call contributes only the immutable `level` (all its other
attributes, including its own ball and player allocations, are
immediately overwritten and never referenced again).  Fails only if
`game`'s own references are dangling. -/
def clone_gameH (w : World) (g : HGame) (fresh : Nat) :
    Option (World × HGame) :=
  match snapshotH w g with
  | none => none
  | some s =>
      let w1 := wset (wset w fresh (.posO s.ball.row s.ball.col)) (fresh + 1)
        (.ballO fresh)
      let (w2, pts, _) := allocPlayers w1 s.players (fresh + 2)
      some (w2,
        { level := s.level
          LEFT_goals := s.LEFT_goals
          RIGHT_goals := s.RIGHT_goals
          current_team := s.current_team
          last_possession_team := s.last_possession_team
          passes_count := s.passes_count
          turn_count := s.turn_count
          skip_next_turn := s.skip_next_turn
          ballTag := fresh + 1
          playerTags := pts })

/-- A concrete level-1 game position (LEFT to move, pieces at the
canonical opening cells), used to instantiate universally quantified
theorems. -/
def g_ex : GameS :=
  { level := 1
    LEFT_goals := 0
    RIGHT_goals := 0
    current_team := Team.LEFT
    last_possession_team := Team.LEFT
    passes_count := 0
    turn_count := 0
    skip_next_turn := false
    ball := ⟨7, 5⟩
    players := [⟨Team.LEFT, 1, ⟨4, 5⟩, false⟩, ⟨Team.RIGHT, 1, ⟨10, 5⟩, false⟩] }

/-- Child A of the S6 scenario: `visits = 50`, `total_reward = 10`. -/
def childA : ChildS := ⟨⟨MoveType.move, ⟨0, 0⟩, ⟨1, 1⟩⟩, 50, 10⟩

/-- Child B of the S6 scenario: `visits = 40`, `total_reward = 30`. -/
def childB : ChildS := ⟨⟨MoveType.move, ⟨2, 2⟩, ⟨3, 3⟩⟩, 40, 30⟩

/-- A four-object heap fixture: a ball at `(7,5)` and one LEFT player at
`(4,5)`, each with its own position object. -/
def w_ex : World := fun t =>
  match t with
  | 0 => Obj.posO 7 5
  | 1 => Obj.ballO 0
  | 2 => Obj.posO 4 5
  | 3 => Obj.playerO 2 Team.LEFT 1 false
  | _ => Obj.noneO

/-- The game owning the objects of `w_ex`. -/
def hg_ex : HGame :=
  ⟨1, 0, 0, Team.LEFT, Team.LEFT, 0, 0, false, 1, [3]⟩

/-- The observable value of `hg_ex` in `w_ex`. -/
def gs_ex : GameS :=
  ⟨1, 0, 0, Team.LEFT, Team.LEFT, 0, 0, false, ⟨7, 5⟩,
    [⟨Team.LEFT, 1, ⟨4, 5⟩, false⟩]⟩

/-- A worker root fixture: 10 visits, reward 5, two children. -/
def r1ex : WRoot :=
  ⟨10, 5, [⟨⟨MoveType.move, ⟨0, 0⟩, ⟨1, 1⟩⟩, 3, 1⟩,
    ⟨⟨MoveType.kick, ⟨2, 2⟩, ⟨3, 3⟩⟩, 2, 2⟩]⟩

/-- A second worker root fixture: 7 visits, reward 4, one child sharing a
move with `r1ex`'s first child. -/
def r2ex : WRoot := ⟨7, 4, [⟨⟨MoveType.move, ⟨0, 0⟩, ⟨1, 1⟩⟩, 4, 6⟩]⟩

/-- A leaf fixture for the backpropagation theorems. -/
def leafEx : MTree := .node 3 2 (some ⟨MoveType.move, ⟨0, 0⟩, ⟨1, 1⟩⟩) []

/-- A two-node tree fixture: a root with `leafEx` as its only child. -/
def treeEx : MTree := .node 5 4 none [leafEx]

/-!
# Theorems

One theorem per claim (with witnesses and counterexamples as closed
companions), preceded by the helper lemmas they share.
-/

/-- C3: for every game and every candidate move `(kind, from, to)` that is
not a member of `game.get_legal_moves()`, `GameManager.execute_move`
returns `(False, "Illegal move")` and the game state is unchanged on every
field (neither `execute_move` nor `execute_kick` is applied). -/
theorem c3_execute_move_illegal_unchanged
    (legal : GameS → List Move) (execMove : GameS → Pos → Pos → Bool × GameS)
    (execKick : GameS → Pos → Bool × GameS) (g : GameS)
    (ty : MoveType) (fp tp : Pos)
    (h : (⟨ty, fp, tp⟩ : Move) ∉ legal g) :
    gm_execute_move legal execMove execKick g ty fp tp =
      ((false, "Illegal move"), g) := by
  unfold gm_execute_move
  simp [h]

/-- Witness for C3 at a concrete input: a kick that is not among the legal
moves is rejected with the state returned untouched. -/
theorem c3_execute_move_illegal_unchanged_witness :
    (⟨MoveType.kick, ⟨7, 5⟩, ⟨7, 9⟩⟩ : Move) ∉
        (fun _ : GameS => ([] : List Move)) g_ex ∧
      gm_execute_move (fun _ => []) (fun g _ _ => (true, g))
        (fun g _ => (true, g)) g_ex MoveType.kick ⟨7, 5⟩ ⟨7, 9⟩ =
        ((false, "Illegal move"), g_ex) :=
  ⟨by simp,
    c3_execute_move_illegal_unchanged (fun _ => []) (fun g _ _ => (true, g))
      (fun g _ => (true, g)) g_ex MoveType.kick ⟨7, 5⟩ ⟨7, 9⟩ (by simp)⟩

/-- C5: `GameManager.check_game_status` gives the external overrides
precedence over the game's internal logic: a supplied `win_goals` with
`LEFT_goals ≥ win_goals` yields a LEFT win, otherwise `RIGHT_goals ≥
win_goals` yields a RIGHT win, otherwise an enabled `max_turns` override
with `turn_count ≥ max_turns` yields a draw, and the internal
`is_game_over` mapping decides only when no override condition fires
(in particular each override case holds for every internal result). -/
theorem c5_check_game_status_precedence
    (lg rg tc : Nat) (ir : InternalResult) (mte : Bool) (mt : Option Nat) :
    (∀ w, lg ≥ w →
        check_game_status lg rg tc ir (some w) mte mt = ⟨true, some "LEFT"⟩) ∧
    (∀ w, ¬ lg ≥ w → rg ≥ w →
        check_game_status lg rg tc ir (some w) mte mt = ⟨true, some "RIGHT"⟩) ∧
    (∀ wg, (∀ w, wg = some w → ¬ lg ≥ w ∧ ¬ rg ≥ w) →
        mte = true → ∀ m, mt = some m → tc ≥ m →
        check_game_status lg rg tc ir wg mte mt = ⟨true, some "DRAW"⟩) ∧
    (∀ wg, (∀ w, wg = some w → ¬ lg ≥ w ∧ ¬ rg ≥ w) →
        ¬ (mte = true ∧ ∃ m, mt = some m ∧ tc ≥ m) →
        check_game_status lg rg tc ir wg mte mt = internal_status ir) := by
  refine ⟨fun w hw => ?_, fun w hnl hr => ?_, fun wg hg hmte m hm htc => ?_,
    fun wg hg hno => ?_⟩
  · simp [check_game_status, hw]
  · simp [check_game_status, hnl, hr]
  · have hcond : mte = true ∧ ∃ m', mt = some m' ∧ tc ≥ m' := ⟨hmte, m, hm, htc⟩
    cases wg with
    | none =>
        simp only [check_game_status, check_game_status_after_goals]
        rw [if_pos hcond]
    | some w =>
        obtain ⟨h1, h2⟩ := hg w rfl
        simp only [check_game_status, check_game_status_after_goals,
          if_neg h1, if_neg h2]
        rw [if_pos hcond]
  · cases wg with
    | none =>
        simp only [check_game_status, check_game_status_after_goals]
        rw [if_neg hno]
    | some w =>
        obtain ⟨h1, h2⟩ := hg w rfl
        simp only [check_game_status, check_game_status_after_goals,
          if_neg h1, if_neg h2]
        rw [if_neg hno]

/-- Witness for C5 at concrete inputs: with `win_goals = 2`, a game at
2–0 is a LEFT win even though the internal result says RIGHT won; with no
goal override and the turn cap disabled, the internal result decides. -/
theorem c5_check_game_status_precedence_witness :
    check_game_status 2 0 5 InternalResult.rightWon (some 2) false none =
        ⟨true, some "LEFT"⟩ ∧
      check_game_status 0 0 5 InternalResult.rightWon none false none =
        internal_status InternalResult.rightWon :=
  ⟨(c5_check_game_status_precedence 2 0 5 InternalResult.rightWon false
      none).1 2 (by decide),
    (c5_check_game_status_precedence 0 0 5 InternalResult.rightWon false
      none).2.2.2 none (by simp) (by simp)⟩

/-- Bind on `Except` consumes an `ok`. -/
theorem except_bind_ok {ε α β : Type} (a : α) (f : α → Except ε β) :
    (Except.ok a >>= f : Except ε β) = f a := rfl

/-- Bind on `Except` propagates an `error`. -/
theorem except_bind_error {ε α β : Type} (e : ε) (f : α → Except ε β) :
    (Except.error e >>= f : Except ε β) = Except.error e := rfl

/-- Map on `Except` over an `ok`. -/
theorem except_map_ok {ε α β : Type} (a : α) (f : α → β) :
    (f <$> (Except.ok a : Except ε α)) = Except.ok (f a) := rfl

/-- Map on `Except` over an `error`. -/
theorem except_map_error {ε α β : Type} (e : ε) (f : α → β) :
    (f <$> (Except.error e : Except ε α)) = Except.error e := rfl

/-- C8: `MinimaxAgent` construction accepts both the top-level form
`{"weights": [...], "minimax_depth": n}` and the nested form
`{"best_individual": {"weights": [...], "depth": n}}` (an explicit depth
argument overriding the file); it fails when neither form supplies
weights or when no depth can be found; and loading fails whenever the
number of weights does not match the level's feature vector length. -/
theorem c8_minimax_agent_loading :
    (∀ doc ws, doc.weights = some ws → minimax_load_weights doc = .ok ws) ∧
    (∀ doc bi ws, doc.weights = none → doc.best_individual = some bi →
        bi.weights = some ws → minimax_load_weights doc = .ok ws) ∧
    (∀ doc d, minimax_load_depth doc (some d) = .ok d) ∧
    (∀ doc d, doc.minimax_depth = some d →
        minimax_load_depth doc none = .ok d) ∧
    (∀ doc bi d, doc.minimax_depth = none → doc.best_individual = some bi →
        bi.depth = some d → minimax_load_depth doc none = .ok d) ∧
    (∀ fl doc d0, doc.weights = none →
        (doc.best_individual = none ∨
          ∃ bi, doc.best_individual = some bi ∧ bi.weights = none) →
        ∃ e, minimax_agent_init fl doc d0 = .error e) ∧
    (∀ fl doc, doc.minimax_depth = none →
        (doc.best_individual = none ∨
          ∃ bi, doc.best_individual = some bi ∧ bi.depth = none) →
        ∃ e, minimax_agent_init fl doc none = .error e) ∧
    (∀ fl doc d0 ws d, minimax_load_weights doc = .ok ws →
        minimax_load_depth doc d0 = .ok d → ws.length ≠ fl →
        ∃ e, minimax_agent_init fl doc d0 = .error e) ∧
    (∀ fl doc d0 ws d, minimax_load_weights doc = .ok ws →
        minimax_load_depth doc d0 = .ok d → ws.length = fl →
        minimax_agent_init fl doc d0 = .ok (ws, d)) := by
  refine ⟨fun doc ws h => ?_, fun doc bi ws h1 h2 h3 => ?_, fun doc d => ?_,
    fun doc d h => ?_, fun doc bi d h1 h2 h3 => ?_,
    fun fl doc d0 h1 h2 => ?_, fun fl doc h1 h2 => ?_,
    fun fl doc d0 ws d h1 h2 h3 => ?_, fun fl doc d0 ws d h1 h2 h3 => ?_⟩
  · simp [minimax_load_weights, h]
  · simp [minimax_load_weights, h1, h2, h3]
  · simp [minimax_load_depth]
  · simp [minimax_load_depth, h]
  · simp [minimax_load_depth, h1, h2, h3]
  · rcases h2 with h2 | ⟨bi, h2, h3⟩
    · exact ⟨"No weights found", by simp [minimax_agent_init,
        minimax_load_weights, h1, h2, except_bind_error]⟩
    · exact ⟨"No weights found", by simp [minimax_agent_init,
        minimax_load_weights, h1, h2, h3, except_bind_error]⟩
  · rcases h2 with h2 | ⟨bi, h2, h3⟩
    · cases hw : minimax_load_weights doc with
      | error e => exact ⟨e, by simp [minimax_agent_init, hw,
          except_bind_error]⟩
      | ok ws => exact ⟨"No minimax_depth found", by simp [minimax_agent_init,
          hw, minimax_load_depth, h1, h2, except_bind_ok, except_bind_error]⟩
    · cases hw : minimax_load_weights doc with
      | error e => exact ⟨e, by simp [minimax_agent_init, hw,
          except_bind_error]⟩
      | ok ws => exact ⟨"No minimax_depth found", by simp [minimax_agent_init,
          hw, minimax_load_depth, h1, h2, h3, except_bind_ok,
          except_bind_error]⟩
  · exact ⟨"weight count mismatch", by simp [minimax_agent_init, h1, h2,
      linear_evaluator_check, h3, except_bind_ok, except_map_error]⟩
  · simp [minimax_agent_init, h1, h2, linear_evaluator_check, h3,
      except_bind_ok, except_map_ok]

/-- Witness for C8 at concrete documents: the top-level form loads, the
nested form loads with the nested depth, an explicit depth argument
overrides, an empty document fails, and a two-weight document fails
against a three-feature level. -/
theorem c8_minimax_agent_loading_witness :
    minimax_load_weights ⟨some [1, 2], some 3, none⟩ = .ok [1, 2] ∧
      minimax_load_weights ⟨none, none, some ⟨some [5], some 4⟩⟩ = .ok [5] ∧
      minimax_load_depth ⟨none, none, some ⟨some [5], some 4⟩⟩ none = .ok 4 ∧
      minimax_load_depth ⟨some [1, 2], some 3, none⟩ (some 7) = .ok 7 ∧
      (∃ e, minimax_agent_init 2 ⟨none, none, none⟩ none = .error e) ∧
      (∃ e, minimax_agent_init 3 ⟨some [1, 2], some 3, none⟩ none = .error e) ∧
      minimax_agent_init 2 ⟨some [1, 2], some 3, none⟩ none = .ok ([1, 2], 3) :=
  ⟨c8_minimax_agent_loading.1 ⟨some [1, 2], some 3, none⟩ [1, 2] rfl,
    c8_minimax_agent_loading.2.1 ⟨none, none, some ⟨some [5], some 4⟩⟩
      ⟨some [5], some 4⟩ [5] rfl rfl rfl,
    c8_minimax_agent_loading.2.2.2.2.1 ⟨none, none, some ⟨some [5], some 4⟩⟩
      ⟨some [5], some 4⟩ 4 rfl rfl rfl,
    c8_minimax_agent_loading.2.2.1 ⟨some [1, 2], some 3, none⟩ 7,
    c8_minimax_agent_loading.2.2.2.2.2.1 2 ⟨none, none, none⟩ none rfl
      (Or.inl rfl),
    c8_minimax_agent_loading.2.2.2.2.2.2.2.1 3 ⟨some [1, 2], some 3, none⟩
      none [1, 2] 3 (by simp [minimax_load_weights])
      (by simp [minimax_load_depth]) (by decide),
    c8_minimax_agent_loading.2.2.2.2.2.2.2.2 2 ⟨some [1, 2], some 3, none⟩
      none [1, 2] 3 (by simp [minimax_load_weights])
      (by simp [minimax_load_depth]) (by decide)⟩

/-- The fold underlying Python's `max`: its result is the start value or a
list element. -/
theorem pyFold_mem (k : ChildS → WithBot ℚ) (l : List ChildS) (x : ChildS) :
    l.foldl (fun best c => if k best < k c then c else best) x = x ∨
      l.foldl (fun best c => if k best < k c then c else best) x ∈ l := by
  induction l generalizing x with
  | nil => exact Or.inl rfl
  | cons c cs ih =>
      rcases ih (if k x < k c then c else x) with h | h
      · rw [List.foldl_cons, h]
        split
        · exact Or.inr (List.mem_cons_self _ _)
        · exact Or.inl rfl
      · exact Or.inr (List.mem_cons_of_mem _ h)

/-- The fold underlying Python's `max` returns an element whose key
dominates the start value's key and every list element's key. -/
theorem pyFold_le (k : ChildS → WithBot ℚ) (l : List ChildS) (x : ChildS) :
    k x ≤ k (l.foldl (fun best c => if k best < k c then c else best) x) ∧
      ∀ c ∈ l,
        k c ≤ k (l.foldl (fun best c => if k best < k c then c else best) x) := by
  induction l generalizing x with
  | nil => exact ⟨le_refl _, by simp⟩
  | cons c cs ih =>
      obtain ⟨ih1, ih2⟩ := ih (if k x < k c then c else x)
      have hx : k x ≤ k (if k x < k c then c else x) := by
        split
        · next h => exact le_of_lt h
        · exact le_refl _
      have hc : k c ≤ k (if k x < k c then c else x) := by
        split
        · exact le_refl _
        · next h => exact le_of_not_lt h
      refine ⟨le_trans hx ih1, fun c' hc' => ?_⟩
      rcases List.mem_cons.mp hc' with rfl | hc'
      · exact le_trans hc ih1
      · exact ih2 c' hc'

/-- `pyMaxBy` on a non-empty list returns a member whose key is maximal. -/
theorem pyMaxBy_spec (k : ChildS → WithBot ℚ) (l : List ChildS)
    (h : l ≠ []) :
    ∃ c, pyMaxBy k l = some c ∧ c ∈ l ∧ ∀ x ∈ l, k x ≤ k c := by
  cases l with
  | nil => exact absurd rfl h
  | cons x xs =>
      refine ⟨_, rfl, ?_, ?_⟩
      · rcases pyFold_mem k xs x with h1 | h1
        · rw [h1]; exact List.mem_cons_self _ _
        · exact List.mem_cons_of_mem _ h1
      · intro y hy
        obtain ⟨h1, h2⟩ := pyFold_le k xs x
        rcases List.mem_cons.mp hy with rfl | hy
        · exact h1
        · exact h2 y hy

/-- C4: on the S6 scenario (child A `visits=50, reward=10`, child B
`visits=40, reward=30`) robust child selects A, max child selects B, and
robust-max with `top_percentage=0.5` selects B; in general, on a root with
at least one visited child, robust child returns the move of a child with
maximal visits and max child returns the move of a visited child of
maximal mean reward `total_reward / visits`. -/
theorem c4_final_move_strategies :
    robustChild_select_move [childA, childB] = some childA.move ∧
    maxChild_select_move [childA, childB] = some childB.move ∧
    robustMax_select_move (1 / 2) [childA, childB] = some childB.move ∧
    (∀ children : List ChildS, children ≠ [] →
      ∃ c ∈ children, robustChild_select_move children = some c.move ∧
        ∀ x ∈ children, x.visits ≤ c.visits) ∧
    (∀ (children : List ChildS) (c0 : ChildS), c0 ∈ children →
      0 < c0.visits →
      ∃ c ∈ children, maxChild_select_move children = some c.move ∧
        0 < c.visits ∧
        ∀ x ∈ children, 0 < x.visits →
          x.total_reward / (x.visits : ℚ) ≤ c.total_reward / (c.visits : ℚ)) := by
  have hAB : maxChildKey childA < maxChildKey childB := by
    simp only [maxChildKey, childA, childB]
    norm_num
  have hBA : ¬ (avgReward ⟨⟨MoveType.move, ⟨2, 2⟩, ⟨3, 3⟩⟩, 40, 30⟩ ≤
      avgReward ⟨⟨MoveType.move, ⟨0, 0⟩, ⟨1, 1⟩⟩, 50, 10⟩) := by
    simp only [avgReward]
    norm_num
  refine ⟨by decide,
    by simp [maxChild_select_move, pyMaxBy, hAB],
    by simp [robustMax_select_move, childA, childB, List.mergeSort,
      List.splitInTwo, List.merge, hBA, pyMaxBy],
    fun children hne => ?_, fun children c0 hc0 hv0 => ?_⟩
  · obtain ⟨c, hsel, hmem, hmax⟩ :=
      pyMaxBy_spec (fun c => ((c.visits : ℚ) : WithBot ℚ)) children hne
    refine ⟨c, hmem, by simp [robustChild_select_move, hsel], fun x hx => ?_⟩
    have := hmax x hx
    rw [WithBot.coe_le_coe] at this
    exact_mod_cast this
  · have hne : children ≠ [] := by
      intro h; rw [h] at hc0; exact absurd hc0 (List.not_mem_nil c0)
    obtain ⟨c, hsel, hmem, hmax⟩ := pyMaxBy_spec maxChildKey children hne
    have hbot : maxChildKey c ≠ ⊥ := by
      intro hb
      have h0 := hmax c0 hc0
      rw [hb, le_bot_iff, maxChildKey, if_pos hv0] at h0
      exact WithBot.coe_ne_bot h0
    have hcv : 0 < c.visits := by
      by_contra hcv
      exact hbot (by rw [maxChildKey, if_neg hcv])
    refine ⟨c, hmem, by simp [maxChild_select_move, hsel], hcv, fun x hx hxv => ?_⟩
    have := hmax x hx
    rw [maxChildKey, if_pos hxv, maxChildKey, if_pos hcv, WithBot.coe_le_coe]
      at this
    exact this

/-- Witness for C4: the general robust-child and max-child properties
instantiated on the S6 root. -/
theorem c4_final_move_strategies_witness :
    (∃ c ∈ [childA, childB],
        robustChild_select_move [childA, childB] = some c.move ∧
        ∀ x ∈ [childA, childB], x.visits ≤ c.visits) ∧
    (∃ c ∈ [childA, childB],
        maxChild_select_move [childA, childB] = some c.move ∧ 0 < c.visits ∧
        ∀ x ∈ [childA, childB], 0 < x.visits →
          x.total_reward / (x.visits : ℚ) ≤ c.total_reward / (c.visits : ℚ)) :=
  ⟨c4_final_move_strategies.2.2.2.1 [childA, childB] (by decide),
    c4_final_move_strategies.2.2.2.2 [childA, childB] childA
      (List.mem_cons_self _ _) (by decide)⟩

/-- C9 counterexample: the claim asserts reward `0` for a drawn playout,
but `RandomPlayout.simulate` returns `-1` there — at the internal
200-turn draw position the playout is already terminal with the draw
marker (a non-`None` winner that is not the AI team), and
`calculate_reward` maps every non-`None` winner other than the AI team to
`-1`. -/
theorem c9_draw_reward_counterexample :
    get_winner_spec { g_ex with turn_count := 200 } = some Winner.draw ∧
      simulate Team.LEFT (fun _ => []) (fun g _ => g)
        (fun _ _ => ⟨MoveType.move, ⟨0, 0⟩, ⟨0, 0⟩⟩) 1
        { g_ex with turn_count := 200 } = -1 := by
  constructor
  · decide
  · simp [simulate, playout, get_winner_spec, g_ex, calculate_reward]

/-- C9 (amended): the playout loop stops as soon as the position has a
winner (or no legal move remains), and `simulate` returns `+1` when the
final position's winner is the AI team, `-1` when it is the opposing team
**or the draw marker**, and `0` exactly when the playout stopped with no
winner at all. -/
theorem c9_simulate_reward (AI_team : Team) (legal : GameS → List Move)
    (exec : GameS → Move → GameS) (pick : Nat → List Move → Move)
    (fuel step : Nat) (g : GameS) :
    (∀ w, get_winner_spec g = some w →
        playout legal exec pick fuel step g = g) ∧
    (legal g = [] → playout legal exec pick fuel step g = g) ∧
    (get_winner_spec (playout legal exec pick fuel 0 g) =
          some (Winner.team AI_team) →
        simulate AI_team legal exec pick fuel g = 1) ∧
    (∀ t, t ≠ AI_team →
        get_winner_spec (playout legal exec pick fuel 0 g) =
          some (Winner.team t) →
        simulate AI_team legal exec pick fuel g = -1) ∧
    (get_winner_spec (playout legal exec pick fuel 0 g) = some Winner.draw →
        simulate AI_team legal exec pick fuel g = -1) ∧
    (get_winner_spec (playout legal exec pick fuel 0 g) = none →
        simulate AI_team legal exec pick fuel g = 0) := by
  refine ⟨fun w hw => ?_, fun hl => ?_, fun hw => ?_, fun t ht hw => ?_,
    fun hw => ?_, fun hw => ?_⟩
  · cases fuel with
    | zero => rfl
    | succ n => simp [playout, hw]
  · cases fuel with
    | zero => rfl
    | succ n =>
        simp only [playout]
        cases hg : get_winner_spec g with
        | some w => rfl
        | none => rw [hl]
  · simp [simulate, calculate_reward, hw]
  · have : some (Winner.team t) ≠ some (Winner.team AI_team) := by
      simp [ht]
    simp [simulate, calculate_reward, hw, this]
  · simp [simulate, calculate_reward, hw]
  · simp [simulate, calculate_reward, hw]

/-- Witness for C9: the amended reward mapping at concrete positions — a
playout from a position where LEFT already has two goals yields `+1` for
a LEFT AI, and the terminal-stop clause at the drawn position. -/
theorem c9_simulate_reward_witness :
    simulate Team.LEFT (fun _ => []) (fun g _ => g)
        (fun _ _ => ⟨MoveType.move, ⟨0, 0⟩, ⟨0, 0⟩⟩) 3
        { g_ex with LEFT_goals := 2 } = 1 ∧
      playout (fun _ => []) (fun g _ => g)
        (fun _ _ => ⟨MoveType.move, ⟨0, 0⟩, ⟨0, 0⟩⟩) 3 0
        { g_ex with turn_count := 200 } = { g_ex with turn_count := 200 } :=
  ⟨(c9_simulate_reward Team.LEFT (fun _ => []) (fun g _ => g)
      (fun _ _ => ⟨MoveType.move, ⟨0, 0⟩, ⟨0, 0⟩⟩) 3 0
      { g_ex with LEFT_goals := 2 }).2.2.1 (by decide),
    (c9_simulate_reward Team.LEFT (fun _ => []) (fun g _ => g)
      (fun _ _ => ⟨MoveType.move, ⟨0, 0⟩, ⟨0, 0⟩⟩) 3 0
      { g_ex with turn_count := 200 }).1 Winner.draw (by decide)⟩

/-- C10: children of an engine node always carry pairwise-distinct legal
moves — the invariant holds for a fresh node, is preserved by
`RandomExpansion.expand`, `expand` on a not-fully-expanded node appends
exactly one child carrying a legal move not yet among the children, and
under the invariant `is_fully_expanded` is `True` exactly when the node
has one child per legal move. -/
theorem c10_expansion_invariant :
    (∀ legal : List Move, ENodeInv ⟨legal, []⟩) ∧
    (∀ n choice, ENodeInv n → ENodeInv (expand n choice)) ∧
    (∀ n choice, ENodeInv n → n.legal.Nodup → is_fully_expanded n = false →
      ∃ m, m ∈ n.legal ∧ m ∉ n.childMoves ∧
        expand n choice = ⟨n.legal, n.childMoves ++ [m]⟩) ∧
    (∀ n : ENode, ENodeInv n → n.legal.Nodup →
      (is_fully_expanded n = true ↔ ∀ m, m ∈ n.legal ↔ m ∈ n.childMoves)) := by
  have hmem : ∀ (n : ENode) (choice : Nat) (u : Move) (us : List Move),
      n.legal.filter (fun m => m ∉ n.childMoves) = u :: us →
      (u :: us).get ⟨choice % (u :: us).length, Nat.mod_lt _ (Nat.succ_pos _)⟩
          ∈ n.legal.filter (fun m => m ∉ n.childMoves) := by
    intro n choice u us hf
    rw [hf]
    exact List.get_mem _ _ _
  refine ⟨fun legal => ⟨List.nodup_nil, by simp⟩,
    fun n choice hinv => ?_, fun n choice hinv hnd hfull => ?_,
    fun n hinv hnd => ?_⟩
  · unfold expand
    cases hf : n.legal.filter (fun m => m ∉ n.childMoves) with
    | nil => exact hinv
    | cons u us =>
        have hm := hmem n choice u us hf
        rw [List.mem_filter] at hm
        obtain ⟨hleg, hnew⟩ := hm
        rw [decide_eq_true_iff] at hnew
        constructor
        · rw [List.nodup_append]
          exact ⟨hinv.1, List.nodup_singleton _,
            by simpa [List.disjoint_singleton] using hnew⟩
        · intro m hm
          rcases List.mem_append.mp hm with h | h
          · exact hinv.2 m h
          · rw [List.mem_singleton] at h
            rw [h]
            exact hleg
  · cases hf : n.legal.filter (fun m => m ∉ n.childMoves) with
    | nil =>
        exfalso
        have hsub : n.legal ⊆ n.childMoves := by
          intro m hm
          by_contra hnot
          have : m ∈ n.legal.filter (fun m => m ∉ n.childMoves) :=
            List.mem_filter.mpr ⟨hm, by simpa⟩
          rw [hf] at this
          exact absurd this (List.not_mem_nil m)
        have h1 : n.legal.toFinset ⊆ n.childMoves.toFinset := by
          intro m hm
          rw [List.mem_toFinset] at *
          exact hsub (by simpa using hm)
        have h2 : n.childMoves.toFinset ⊆ n.legal.toFinset := by
          intro m hm
          rw [List.mem_toFinset] at *
          exact hinv.2 m (by simpa using hm)
        have hlen : n.childMoves.length = n.legal.length := by
          have := Finset.Subset.antisymm h1 h2
          calc n.childMoves.length = n.childMoves.toFinset.card :=
                (List.toFinset_card_of_nodup hinv.1).symm
            _ = n.legal.toFinset.card := by rw [this]
            _ = n.legal.length := List.toFinset_card_of_nodup hnd
        rw [is_fully_expanded, decide_eq_false_iff_not] at hfull
        exact hfull hlen
    | cons u us =>
        have hm := hmem n choice u us hf
        rw [List.mem_filter] at hm
        obtain ⟨hleg, hnew⟩ := hm
        rw [decide_eq_true_iff] at hnew
        refine ⟨_, hleg, hnew, ?_⟩
        unfold expand
        rw [hf]
  · constructor
    · intro hfull m
      rw [is_fully_expanded, decide_eq_true_iff] at hfull
      have h2 : n.childMoves.toFinset ⊆ n.legal.toFinset := by
        intro x hx
        rw [List.mem_toFinset] at *
        exact hinv.2 x hx
      have hcard : n.legal.toFinset.card ≤ n.childMoves.toFinset.card := by
        rw [List.toFinset_card_of_nodup hinv.1, List.toFinset_card_of_nodup hnd,
          hfull]
      have heq := Finset.eq_of_subset_of_card_le h2 hcard
      constructor
      · intro hm
        have : m ∈ n.legal.toFinset := List.mem_toFinset.mpr hm
        rw [← heq] at this
        exact List.mem_toFinset.mp this
      · intro hm
        exact hinv.2 m hm
    · intro hiff
      have heq : n.legal.toFinset = n.childMoves.toFinset := by
        ext m
        rw [List.mem_toFinset, List.mem_toFinset]
        exact hiff m
      rw [is_fully_expanded, decide_eq_true_iff]
      calc n.childMoves.length = n.childMoves.toFinset.card :=
            (List.toFinset_card_of_nodup hinv.1).symm
        _ = n.legal.toFinset.card := by rw [heq]
        _ = n.legal.length := List.toFinset_card_of_nodup hnd

/-- Witness for C10: on a node with two legal moves and one child, the
invariant holds, expansion appends the missing move, and
`is_fully_expanded` correctly reports both states. -/
theorem c10_expansion_invariant_witness :
    ENodeInv ⟨[⟨MoveType.move, ⟨0, 0⟩, ⟨1, 1⟩⟩], []⟩ ∧
      ENodeInv (expand ⟨[⟨MoveType.move, ⟨0, 0⟩, ⟨1, 1⟩⟩,
        ⟨MoveType.kick, ⟨2, 2⟩, ⟨3, 3⟩⟩], [⟨MoveType.move, ⟨0, 0⟩, ⟨1, 1⟩⟩]⟩ 0) ∧
      (is_fully_expanded ⟨[⟨MoveType.move, ⟨0, 0⟩, ⟨1, 1⟩⟩,
          ⟨MoveType.kick, ⟨2, 2⟩, ⟨3, 3⟩⟩], [⟨MoveType.move, ⟨0, 0⟩, ⟨1, 1⟩⟩]⟩ =
            true ↔
        ∀ m, m ∈ [⟨MoveType.move, ⟨0, 0⟩, ⟨1, 1⟩⟩,
            (⟨MoveType.kick, ⟨2, 2⟩, ⟨3, 3⟩⟩ : Move)] ↔
          m ∈ [(⟨MoveType.move, ⟨0, 0⟩, ⟨1, 1⟩⟩ : Move)]) :=
  ⟨c10_expansion_invariant.1 [⟨MoveType.move, ⟨0, 0⟩, ⟨1, 1⟩⟩],
    c10_expansion_invariant.2.1 ⟨[⟨MoveType.move, ⟨0, 0⟩, ⟨1, 1⟩⟩,
      ⟨MoveType.kick, ⟨2, 2⟩, ⟨3, 3⟩⟩], [⟨MoveType.move, ⟨0, 0⟩, ⟨1, 1⟩⟩]⟩ 0
      (by constructor
          · exact List.nodup_singleton _
          · intro m hm
            rw [List.mem_singleton] at hm
            rw [hm]
            exact List.mem_cons_self _ _),
    c10_expansion_invariant.2.2.2 ⟨[⟨MoveType.move, ⟨0, 0⟩, ⟨1, 1⟩⟩,
      ⟨MoveType.kick, ⟨2, 2⟩, ⟨3, 3⟩⟩], [⟨MoveType.move, ⟨0, 0⟩, ⟨1, 1⟩⟩]⟩
      (by constructor
          · exact List.nodup_singleton _
          · intro m hm
            rw [List.mem_singleton] at hm
            rw [hm]
            exact List.mem_cons_self _ _)
      (by decide)⟩

/-- `setAt` at an in-range index stores the new element there. -/
theorem setAt_get_self (cs : List MTree) (i : Nat) (c c' : MTree)
    (h : cs.get? i = some c) : (setAt cs i c').get? i = some c' := by
  induction cs generalizing i with
  | nil => simp at h
  | cons x xs ih =>
      cases i with
      | zero => rfl
      | succ j => exact ih j (by simpa using h)

/-- `setAt` leaves every other index unchanged. -/
theorem setAt_get_ne (cs : List MTree) (i j : Nat) (c' : MTree)
    (h : j ≠ i) : (setAt cs i c').get? j = cs.get? j := by
  induction cs generalizing i j with
  | nil => rfl
  | cons x xs ih =>
      cases i with
      | zero =>
          cases j with
          | zero => exact absurd rfl h
          | succ j' => rfl
      | succ i' =>
          cases j with
          | zero => rfl
          | succ j' => exact ih i' j' (fun he => h (by rw [he]))

/-- Backpropagation along a valid path adds `(1, r)` to the statistics of
every node on the path (the parent chain of the target node). -/
theorem backprop_stats_on_chain (r : ℚ) :
    ∀ (p q : List Nat) (root n : MTree), subtreeAt root p = some n →
      (∃ s, q ++ s = p) →
      (subtreeAt (backpropagate root p r) q).map MTree.stats =
        (subtreeAt root q).map
          (fun t => (t.visits + 1, t.total_reward + r)) := by
  intro p
  induction p with
  | nil =>
      intro q root n hp hq
      obtain ⟨s, hs⟩ := hq
      obtain ⟨rfl, rfl⟩ : q = [] ∧ s = [] := List.append_eq_nil.mp hs
      cases root with
      | node v w m cs => simp [backpropagate, subtreeAt, MTree.stats,
          MTree.visits, MTree.total_reward]
  | cons i p' ih =>
      intro q root n hp hq
      cases root with
      | node v w m cs =>
          have hget : ∃ c, cs.get? i = some c ∧ subtreeAt c p' = some n := by
            simp only [subtreeAt, MTree.children] at hp
            cases hc : cs.get? i with
            | none => rw [hc] at hp; exact absurd hp (by simp)
            | some c => rw [hc] at hp; exact ⟨c, rfl, hp⟩
          obtain ⟨c, hc, hcp⟩ := hget
          obtain ⟨s, hs⟩ := hq
          cases q with
          | nil =>
              have hc' : cs[i]? = some c := by
                rw [← List.get?_eq_getElem?]; exact hc
              simp [backpropagate, hc, hc', subtreeAt, MTree.stats,
                MTree.visits, MTree.total_reward]
          | cons j q' =>
              have hj : j = i ∧ q' ++ s = p' := by
                rw [List.cons_append] at hs
                exact ⟨(List.cons.injEq _ _ _ _ ▸ hs).1,
                  (List.cons.injEq _ _ _ _ ▸ hs).2⟩
              obtain ⟨rfl, hq's⟩ := hj
              have hset := setAt_get_self cs j (c) (backpropagate c p' r) hc
              simp only [backpropagate, hc, subtreeAt, MTree.children, hset]
              exact ih q' c n hcp ⟨s, hq's⟩

/-- Backpropagation along a valid path leaves the statistics of every
node off the path unchanged. -/
theorem backprop_stats_off_chain (r : ℚ) :
    ∀ (p q : List Nat) (root n : MTree), subtreeAt root p = some n →
      ¬ (∃ s, q ++ s = p) →
      (subtreeAt (backpropagate root p r) q).map MTree.stats =
        (subtreeAt root q).map MTree.stats := by
  intro p
  induction p with
  | nil =>
      intro q root n hp hq
      cases q with
      | nil => exact absurd ⟨[], rfl⟩ hq
      | cons j q' =>
          cases root with
          | node v w m cs => simp [backpropagate, subtreeAt, MTree.children]
  | cons i p' ih =>
      intro q root n hp hq
      cases root with
      | node v w m cs =>
          have hget : ∃ c, cs.get? i = some c ∧ subtreeAt c p' = some n := by
            simp only [subtreeAt, MTree.children] at hp
            cases hc : cs.get? i with
            | none => rw [hc] at hp; exact absurd hp (by simp)
            | some c => rw [hc] at hp; exact ⟨c, rfl, hp⟩
          obtain ⟨c, hc, hcp⟩ := hget
          cases q with
          | nil => exact absurd ⟨i :: p', rfl⟩ hq
          | cons j q' =>
              by_cases hji : j = i
              · subst hji
                have hq' : ¬ (∃ s, q' ++ s = p') := by
                  intro ⟨s, hs⟩
                  exact hq ⟨s, by rw [List.cons_append, hs]⟩
                have hset := setAt_get_self cs j c (backpropagate c p' r) hc
                simp only [backpropagate, hc, subtreeAt, MTree.children, hset]
                exact ih q' c n hcp hq'
              · have hset := setAt_get_ne cs i j (backpropagate c p' r) hji
                simp only [backpropagate, hc, subtreeAt, MTree.children, hset]

/-- C7: `StandardBackpropagation.backpropagate(n, r)` adds exactly `1`
visit and reward `r` to every node on the parent chain from `n` up to the
root inclusive (the nodes along the path to `n`), leaves every other
node's statistics unchanged, and, when a Progressive History selector is
attached, calls `update_history` exactly once — on the leaf-side node `n`
with reward `r`. -/
theorem c7_backpropagation (hasPH : Bool) (root n : MTree) (p : List Nat)
    (r : ℚ) (hp : subtreeAt root p = some n) :
    (∀ q, (∃ s, q ++ s = p) →
      (subtreeAt (backpropagate root p r) q).map MTree.stats =
        (subtreeAt root q).map
          (fun t => (t.visits + 1, t.total_reward + r))) ∧
    (∀ q, ¬ (∃ s, q ++ s = p) →
      (subtreeAt (backpropagate root p r) q).map MTree.stats =
        (subtreeAt root q).map MTree.stats) ∧
    backpropCalls hasPH root p r = (if hasPH then [(n, r)] else []) := by
  refine ⟨fun q hq => backprop_stats_on_chain r p q root n hp hq,
    fun q hq => backprop_stats_off_chain r p q root n hp hq, ?_⟩
  rw [backpropCalls, hp]

/-- Witness for C7 on the two-node fixture: backpropagating reward `1`
through the leaf updates both the root's and the leaf's statistics and
logs exactly one `update_history` call on the leaf. -/
theorem c7_backpropagation_witness :
    (subtreeAt (backpropagate treeEx [0] 1) []).map MTree.stats =
        some (6, 5) ∧
      (subtreeAt (backpropagate treeEx [0] 1) [0]).map MTree.stats =
        some (4, 3) ∧
      backpropCalls true treeEx [0] 1 = [(leafEx, 1)] := by
  obtain ⟨h1, h2, h3⟩ := c7_backpropagation true treeEx leafEx [0] 1 rfl
  refine ⟨?_, ?_, by rw [h3]; rfl⟩
  · rw [h1 [] ⟨[0], rfl⟩]
    norm_num [subtreeAt, treeEx, MTree.visits, MTree.total_reward]
  · rw [h1 [0] ⟨[], rfl⟩]
    norm_num [subtreeAt, treeEx, leafEx, MTree.children, MTree.visits,
      MTree.total_reward]

/-- `updFor` never changes the move a child carries. -/
theorem updFor_move (c x : ChildS) : (updFor c x).move = x.move := by
  unfold updFor
  split <;> rfl

/-- The visits added by `updFor`. -/
theorem updFor_visits (c x : ChildS) :
    (updFor c x).visits = x.visits + (if x.move = c.move then c.visits else 0) := by
  unfold updFor
  split <;> simp_all

/-- The reward added by `updFor`. -/
theorem updFor_reward (c x : ChildS) :
    (updFor c x).total_reward =
      x.total_reward + (if x.move = c.move then c.total_reward else 0) := by
  unfold updFor
  split <;> simp_all

/-- `movesOf` distributes over cons. -/
theorem movesOf_cons (x : ChildS) (cs : List ChildS) :
    movesOf (x :: cs) = x.move :: movesOf cs := rfl

/-- `movesOf` distributes over append. -/
theorem movesOf_append (l₁ l₂ : List ChildS) :
    movesOf (l₁ ++ l₂) = movesOf l₁ ++ movesOf l₂ := by
  simp [movesOf]

/-- In-place statistic updates do not change the move list. -/
theorem movesOf_map_updFor (c : ChildS) (cs : List ChildS) :
    movesOf (cs.map (updFor c)) = movesOf cs := by
  induction cs with
  | nil => rfl
  | cons x xs ih => simp [movesOf_cons, updFor_move, ih]

/-- `visitsFor` on a cons. -/
theorem visitsFor_cons (m : Move) (x : ChildS) (cs : List ChildS) :
    visitsFor m (x :: cs) =
      (if x.move = m then x.visits else 0) + visitsFor m cs := by
  unfold visitsFor
  rw [List.filter_cons]
  by_cases h : x.move = m <;> simp [h]

/-- `rewardFor` on a cons. -/
theorem rewardFor_cons (m : Move) (x : ChildS) (cs : List ChildS) :
    rewardFor m (x :: cs) =
      (if x.move = m then x.total_reward else 0) + rewardFor m cs := by
  unfold rewardFor
  rw [List.filter_cons]
  by_cases h : x.move = m <;> simp [h]

/-- `visitsFor` distributes over append. -/
theorem visitsFor_append (m : Move) (l₁ l₂ : List ChildS) :
    visitsFor m (l₁ ++ l₂) = visitsFor m l₁ + visitsFor m l₂ := by
  induction l₁ with
  | nil => simp [visitsFor]
  | cons x xs ih => rw [List.cons_append, visitsFor_cons, visitsFor_cons, ih]
                    omega

/-- `rewardFor` distributes over append. -/
theorem rewardFor_append (m : Move) (l₁ l₂ : List ChildS) :
    rewardFor m (l₁ ++ l₂) = rewardFor m l₁ + rewardFor m l₂ := by
  induction l₁ with
  | nil => simp [rewardFor]
  | cons x xs ih => rw [List.cons_append, rewardFor_cons, rewardFor_cons, ih]
                    ring

/-- `visitsFor` vanishes for moves carried by no child. -/
theorem visitsFor_eq_zero (m : Move) (cs : List ChildS)
    (h : m ∉ movesOf cs) : visitsFor m cs = 0 := by
  induction cs with
  | nil => rfl
  | cons x xs ih =>
      rw [movesOf_cons, List.mem_cons] at h
      push_neg at h
      rw [visitsFor_cons, if_neg (fun he => h.1 he.symm), ih h.2]

/-- `rewardFor` vanishes for moves carried by no child. -/
theorem rewardFor_eq_zero (m : Move) (cs : List ChildS)
    (h : m ∉ movesOf cs) : rewardFor m cs = 0 := by
  induction cs with
  | nil => rfl
  | cons x xs ih =>
      rw [movesOf_cons, List.mem_cons] at h
      push_neg at h
      rw [rewardFor_cons, if_neg (fun he => h.1 he.symm), ih h.2]
      ring

/-- On a duplicate-free child list the per-move sums reduce to the unique
carrier's own statistics. -/
theorem visitsFor_self (cs : List ChildS) (c : ChildS)
    (hnd : (movesOf cs).Nodup) (hc : c ∈ cs) :
    visitsFor c.move cs = c.visits ∧ rewardFor c.move cs = c.total_reward := by
  induction cs with
  | nil => exact absurd hc (List.not_mem_nil c)
  | cons x xs ih =>
      rw [movesOf_cons, List.nodup_cons] at hnd
      rcases List.mem_cons.mp hc with rfl | hc'
      · have hz : c.move ∉ movesOf xs := hnd.1
        rw [visitsFor_cons, rewardFor_cons, if_pos rfl, if_pos rfl,
          visitsFor_eq_zero _ _ hz, rewardFor_eq_zero _ _ hz]
        constructor <;> ring
      · have hne : x.move ≠ c.move := by
          intro he
          exact hnd.1 (he ▸ List.mem_map.mpr ⟨c, hc', rfl⟩)
        obtain ⟨h1, h2⟩ := ih hnd.2 hc'
        rw [visitsFor_cons, rewardFor_cons, if_neg hne, if_neg hne, h1, h2]
        constructor <;> ring

/-- When no child carries `c`'s move, the in-place update pass is the
identity. -/
theorem map_updFor_id (c : ChildS) (cs : List ChildS)
    (h : c.move ∉ movesOf cs) : cs.map (updFor c) = cs := by
  induction cs with
  | nil => rfl
  | cons x xs ih =>
      rw [movesOf_cons, List.mem_cons] at h
      push_neg at h
      rw [List.map_cons, ih h.2]
      congr 1
      unfold updFor
      rw [if_neg (fun he => h.1 he.symm)]

/-- Per-move visit sums after the in-place update pass of `_merge_trees`
on a duplicate-free child list containing `c`'s move: exactly the child
carrying `c.move` gains `c.visits`. -/
theorem visitsFor_map_updFor (m : Move) (c : ChildS) (cs : List ChildS)
    (hnd : (movesOf cs).Nodup) (hmem : c.move ∈ movesOf cs) :
    visitsFor m (cs.map (updFor c)) =
      visitsFor m cs + (if c.move = m then c.visits else 0) := by
  induction cs with
  | nil => exact absurd hmem (List.not_mem_nil _)
  | cons x xs ih =>
      rw [movesOf_cons, List.nodup_cons] at hnd
      rw [movesOf_cons, List.mem_cons] at hmem
      rcases hmem with hcx | hcx
      · have hxs : c.move ∉ movesOf xs := hcx ▸ hnd.1
        rw [List.map_cons, map_updFor_id c xs hxs, visitsFor_cons,
          visitsFor_cons, updFor_move, updFor_visits, if_pos hcx.symm]
        by_cases hxm : x.move = m
        · rw [if_pos hxm, if_pos hxm, if_pos (hcx ▸ hxm : c.move = m)]
          omega
        · rw [if_neg hxm, if_neg hxm,
            if_neg (fun h => hxm (hcx.symm ▸ h : x.move = m))]
          omega
      · have hne : x.move ≠ c.move := fun he => hnd.1 (he ▸ hcx)
        rw [List.map_cons, visitsFor_cons, visitsFor_cons, updFor_move,
          updFor_visits, if_neg hne, ih hnd.2 hcx]
        simp only [Nat.add_zero]
        omega

/-- Per-move reward sums after the in-place update pass of
`_merge_trees`, as `visitsFor_map_updFor`. -/
theorem rewardFor_map_updFor (m : Move) (c : ChildS) (cs : List ChildS)
    (hnd : (movesOf cs).Nodup) (hmem : c.move ∈ movesOf cs) :
    rewardFor m (cs.map (updFor c)) =
      rewardFor m cs + (if c.move = m then c.total_reward else 0) := by
  induction cs with
  | nil => exact absurd hmem (List.not_mem_nil _)
  | cons x xs ih =>
      rw [movesOf_cons, List.nodup_cons] at hnd
      rw [movesOf_cons, List.mem_cons] at hmem
      rcases hmem with hcx | hcx
      · have hxs : c.move ∉ movesOf xs := hcx ▸ hnd.1
        rw [List.map_cons, map_updFor_id c xs hxs, rewardFor_cons,
          rewardFor_cons, updFor_move, updFor_reward, if_pos hcx.symm]
        by_cases hxm : x.move = m
        · rw [if_pos hxm, if_pos hxm, if_pos (hcx ▸ hxm : c.move = m)]
          ring
        · rw [if_neg hxm, if_neg hxm,
            if_neg (fun h => hxm (hcx.symm ▸ h : x.move = m))]
          ring
      · have hne : x.move ≠ c.move := fun he => hnd.1 (he ▸ hcx)
        rw [List.map_cons, rewardFor_cons, rewardFor_cons, updFor_move,
          updFor_reward, if_neg hne, ih hnd.2 hcx]
        simp only [add_zero]
        ring

/-- The `move in move_to_merged_child` test of `_merge_trees`, as the
source's `any` over the accumulated children. -/
theorem any_move_iff (acc : List ChildS) (c : ChildS) :
    (acc.any (fun m => m.move = c.move) = true) ↔ c.move ∈ movesOf acc := by
  rw [List.any_eq_true]
  unfold movesOf
  rw [List.mem_map]
  constructor
  · rintro ⟨x, hx, he⟩
    exact ⟨x, hx, by simpa using he⟩
  · rintro ⟨x, hx, he⟩
    exact ⟨x, hx, by simpa using he⟩

/-- `addChild` keeps the merged moves duplicate-free. -/
theorem addChild_nodup (acc : List ChildS) (c : ChildS)
    (h : (movesOf acc).Nodup) : (movesOf (addChild acc c)).Nodup := by
  unfold addChild
  split
  · rw [movesOf_map_updFor]
    exact h
  · next hany =>
      rw [movesOf_append]
      have hnot : c.move ∉ movesOf acc := by
        intro hmem
        exact hany ((any_move_iff acc c).mpr hmem)
      have : movesOf [(⟨c.move, 0 + c.visits, 0 + c.total_reward⟩ : ChildS)] =
          [c.move] := rfl
      rw [this]
      exact List.Nodup.append h (List.nodup_singleton _)
        (by simpa [List.disjoint_singleton] using hnot)

/-- The moves present after `addChild`. -/
theorem addChild_mem (acc : List ChildS) (c : ChildS) (m : Move) :
    m ∈ movesOf (addChild acc c) ↔ m ∈ movesOf acc ∨ m = c.move := by
  unfold addChild
  split
  · next hany =>
      rw [movesOf_map_updFor]
      constructor
      · exact Or.inl
      · rintro (hm | rfl)
        · exact hm
        · exact (any_move_iff acc c).mp hany
  · rw [movesOf_append]
    have : movesOf [(⟨c.move, 0 + c.visits, 0 + c.total_reward⟩ : ChildS)] =
        [c.move] := rfl
    rw [this, List.mem_append, List.mem_singleton]

/-- `addChild` adds exactly `c.visits` to the per-move visit sum of
`c.move` and nothing elsewhere. -/
theorem addChild_visitsFor (acc : List ChildS) (c : ChildS) (m : Move)
    (h : (movesOf acc).Nodup) :
    visitsFor m (addChild acc c) =
      visitsFor m acc + (if c.move = m then c.visits else 0) := by
  unfold addChild
  split
  · next hany =>
      exact visitsFor_map_updFor m c acc h ((any_move_iff acc c).mp hany)
  · rw [visitsFor_append, visitsFor_cons]
    have : visitsFor m ([] : List ChildS) = 0 := rfl
    rw [this]
    by_cases hcm : c.move = m
    · simp [hcm]
    · simp [hcm]

/-- `addChild` adds exactly `c.total_reward` to the per-move reward sum of
`c.move` and nothing elsewhere. -/
theorem addChild_rewardFor (acc : List ChildS) (c : ChildS) (m : Move)
    (h : (movesOf acc).Nodup) :
    rewardFor m (addChild acc c) =
      rewardFor m acc + (if c.move = m then c.total_reward else 0) := by
  unfold addChild
  split
  · next hany =>
      exact rewardFor_map_updFor m c acc h ((any_move_iff acc c).mp hany)
  · rw [rewardFor_append, rewardFor_cons]
    have : rewardFor m ([] : List ChildS) = 0 := rfl
    rw [this]
    by_cases hcm : c.move = m
    · simp [hcm]
    · simp [hcm]

/-- The inner loop of `_merge_trees` over one worker's children: the
merged list stays duplicate-free, its move set grows by the worker's
moves, and every per-move sum grows by the worker's contribution. -/
theorem foldl_addChild_spec (cs : List ChildS) :
    ∀ acc : List ChildS, (movesOf acc).Nodup →
      (movesOf (cs.foldl addChild acc)).Nodup ∧
      (∀ m, m ∈ movesOf (cs.foldl addChild acc) ↔
        m ∈ movesOf acc ∨ m ∈ movesOf cs) ∧
      (∀ m, visitsFor m (cs.foldl addChild acc) =
        visitsFor m acc + visitsFor m cs) ∧
      (∀ m, rewardFor m (cs.foldl addChild acc) =
        rewardFor m acc + rewardFor m cs) := by
  induction cs with
  | nil =>
      intro acc h
      refine ⟨h, fun m => ?_, fun m => ?_, fun m => ?_⟩
      · simp [movesOf]
      · have : visitsFor m ([] : List ChildS) = 0 := rfl
        rw [List.foldl_nil, this]
        omega
      · have : rewardFor m ([] : List ChildS) = 0 := rfl
        rw [List.foldl_nil, this]
        ring
  | cons x xs ih =>
      intro acc h
      rw [List.foldl_cons]
      obtain ⟨ih1, ih2, ih3, ih4⟩ := ih (addChild acc x) (addChild_nodup acc x h)
      refine ⟨ih1, fun m => ?_, fun m => ?_, fun m => ?_⟩
      · rw [ih2 m, addChild_mem, movesOf_cons, List.mem_cons]
        constructor
        · rintro ((hm | rfl) | hm)
          · exact Or.inl hm
          · exact Or.inr (Or.inl rfl)
          · exact Or.inr (Or.inr hm)
        · rintro (hm | rfl | hm)
          · exact Or.inl (Or.inl hm)
          · exact Or.inl (Or.inr rfl)
          · exact Or.inr hm
      · rw [ih3 m, addChild_visitsFor acc x m h, visitsFor_cons]
        by_cases hxm : x.move = m
        · rw [if_pos hxm]
          omega
        · rw [if_neg hxm]
          omega
      · rw [ih4 m, addChild_rewardFor acc x m h, rewardFor_cons]
        by_cases hxm : x.move = m
        · rw [if_pos hxm]
          ring
        · rw [if_neg hxm]
          ring

/-- `allChildren` over a cons of worker roots. -/
theorem allChildren_cons (r : WRoot) (roots : List WRoot) :
    allChildren (r :: roots) = r.children ++ allChildren roots := by
  simp [allChildren]

/-- The outer loop of `_merge_trees`: root statistics accumulate and the
children satisfy the per-move merge specification. -/
theorem merge_fold_spec (roots : List WRoot) :
    ∀ acc : WRoot, (movesOf acc.children).Nodup →
      (roots.foldl mergeStep acc).visits =
          acc.visits + (roots.map (fun r => r.visits)).sum ∧
      (roots.foldl mergeStep acc).total_reward =
          acc.total_reward + (roots.map (fun r => r.total_reward)).sum ∧
      (movesOf (roots.foldl mergeStep acc).children).Nodup ∧
      (∀ m, m ∈ movesOf (roots.foldl mergeStep acc).children ↔
        m ∈ movesOf acc.children ∨ m ∈ movesOf (allChildren roots)) ∧
      (∀ m, visitsFor m (roots.foldl mergeStep acc).children =
        visitsFor m acc.children + visitsFor m (allChildren roots)) ∧
      (∀ m, rewardFor m (roots.foldl mergeStep acc).children =
        rewardFor m acc.children + rewardFor m (allChildren roots)) := by
  induction roots with
  | nil =>
      intro acc h
      refine ⟨by simp, by simp, h, fun m => ?_, fun m => ?_, fun m => ?_⟩
      · have : movesOf (allChildren []) = [] := rfl
        simp [this]
      · have : visitsFor m (allChildren []) = 0 := rfl
        rw [List.foldl_nil, this]
        omega
      · have : rewardFor m (allChildren []) = 0 := rfl
        rw [List.foldl_nil, this]
        ring
  | cons r roots ih =>
      intro acc h
      rw [List.foldl_cons]
      obtain ⟨hstep1, hstep2, hstep3, hstep4⟩ :=
        foldl_addChild_spec r.children acc.children h
      have hstepn : (movesOf (mergeStep acc r).children).Nodup := hstep1
      obtain ⟨ih1, ih2, ih3, ih4, ih5, ih6⟩ := ih (mergeStep acc r) hstepn
      refine ⟨?_, ?_, ih3, fun m => ?_, fun m => ?_, fun m => ?_⟩
      · rw [ih1]
        simp [mergeStep]
        omega
      · rw [ih2]
        simp [mergeStep]
        ring
      · rw [ih4 m, allChildren_cons, movesOf_append, List.mem_append]
        have : m ∈ movesOf (mergeStep acc r).children ↔
            m ∈ movesOf acc.children ∨ m ∈ movesOf r.children := hstep2 m
        rw [this]
        tauto
      · rw [ih5 m, allChildren_cons, visitsFor_append]
        have : visitsFor m (mergeStep acc r).children =
            visitsFor m acc.children + visitsFor m r.children := hstep3 m
        rw [this]
        omega
      · rw [ih6 m, allChildren_cons, rewardFor_append]
        have : rewardFor m (mergeStep acc r).children =
            rewardFor m acc.children + rewardFor m r.children := hstep4 m
        rw [this]
        ring

/-- C2: for every non-empty worker list, `_merge_trees` returns a merged
root with exactly one child per distinct move among the workers' root
children; each merged child's `visits` and `total_reward` are the sums of
the corresponding statistics of all worker-root children carrying its
move, and the merged root's own `visits` and `total_reward` are the sums
over the worker roots.  Only the roots' immediate children are merged. -/
theorem c2_merge_trees (roots : List WRoot) (h : roots ≠ []) :
    ∃ mr, merge_trees roots = some mr ∧
      mr.visits = (roots.map (fun r => r.visits)).sum ∧
      mr.total_reward = (roots.map (fun r => r.total_reward)).sum ∧
      (movesOf mr.children).Nodup ∧
      (∀ m, m ∈ movesOf mr.children ↔ ∃ c ∈ allChildren roots, c.move = m) ∧
      ∀ c ∈ mr.children, c.visits = visitsFor c.move (allChildren roots) ∧
        c.total_reward = rewardFor c.move (allChildren roots) := by
  obtain ⟨h1, h2, h3, h4, h5, h6⟩ :=
    merge_fold_spec roots ⟨0, 0, []⟩ List.nodup_nil
  refine ⟨roots.foldl mergeStep ⟨0, 0, []⟩, by rw [merge_trees, if_neg h],
    by rw [h1]; simp, by rw [h2]; simp, h3, fun m => ?_, fun c hc => ?_⟩
  · rw [h4 m]
    have hempty : movesOf (⟨0, 0, []⟩ : WRoot).children = [] := rfl
    rw [hempty]
    unfold movesOf
    rw [List.mem_map]
    simp
  · obtain ⟨hv, hr⟩ := visitsFor_self _ c h3 hc
    constructor
    · rw [← hv, h5 c.move]
      have : visitsFor c.move (⟨0, 0, []⟩ : WRoot).children = 0 := rfl
      rw [this]
      omega
    · rw [← hr, h6 c.move]
      have : rewardFor c.move (⟨0, 0, []⟩ : WRoot).children = 0 := rfl
      rw [this]
      ring

/-- Witness for C2 on two concrete workers sharing one move: the merged
root's statistics are the worker sums. -/
theorem c2_merge_trees_witness :
    ∃ mr, merge_trees [r1ex, r2ex] = some mr ∧ mr.visits = 17 ∧
      mr.total_reward = 9 := by
  obtain ⟨mr, hm, hv, hr, _⟩ := c2_merge_trees [r1ex, r2ex] (by simp)
  refine ⟨mr, hm, ?_, ?_⟩
  · rw [hv]
    norm_num [r1ex, r2ex]
  · rw [hr]
    norm_num [r1ex, r2ex]

/-- Rebuilding the players from their snapshot tuples is the identity. -/
theorem players_roundtrip (ps : List PlayerS) :
    ((ps.map (fun p => (p.team, p.pid, p.pos.row, p.pos.col, p.gk))).map
      (fun q => (⟨q.1, q.2.1, ⟨q.2.2.1, q.2.2.2.1⟩, q.2.2.2.2⟩ : PlayerS))) =
      ps := by
  induction ps with
  | nil => rfl
  | cons p ps ih => simp [ih]

/-- Restoring the snapshot of a game rewrites every observable field with
its own value except `last_possession_team`, which falls back to the
`LEFT` default because the snapshot carries no such key. -/
theorem restore_snapshot (g : GameS) :
    restore_game_state g (get_game_state_spec g) =
      { g with last_possession_team := Team.LEFT } := by
  unfold restore_game_state get_game_state_spec
  rw [players_roundtrip]

/-- C1 counterexample: `get_best_move` does mutate the passed state — on
the opening-book path (turn 0, AI playing LEFT) `turn_count` is
incremented from 0 to 1, and on the search path a `RIGHT`
`last_possession_team` is reset to `LEFT` by the restore. -/
theorem c1_state_mutation_counterexample :
    g_ex.turn_count = 0 ∧
      (get_best_move_state g_ex Team.LEFT true).turn_count = 1 ∧
      ({ g_ex with turn_count := 5, last_possession_team := Team.RIGHT }
          : GameS).last_possession_team = Team.RIGHT ∧
      (get_best_move_state
          { g_ex with turn_count := 5, last_possession_team := Team.RIGHT }
          Team.LEFT true).last_possession_team = Team.LEFT := by
  refine ⟨rfl, by decide, rfl, by decide⟩

/-- C1 (amended): `get_best_move` leaves the passed game state unchanged
on every observable field, except that on the opening-book path it
increments `turn_count` by one (all other fields unchanged), and on the
search path the restore resets `last_possession_team` to `LEFT` (all
other fields unchanged); when it is not the given team's turn the state
is untouched. -/
theorem c1_get_best_move_frame (g : GameS) (team : Team) (ub : Bool) :
    (g.current_team ≠ team → get_best_move_state g team ub = g) ∧
    (g.current_team = team →
      (ub = true ∧ g.turn_count = 0 ∧ team = Team.LEFT) →
      get_best_move_state g team ub =
        { g with turn_count := g.turn_count + 1 }) ∧
    (g.current_team = team →
      ¬ (ub = true ∧ g.turn_count = 0 ∧ team = Team.LEFT) →
      get_best_move_state g team ub =
        { g with last_possession_team := Team.LEFT }) := by
  refine ⟨fun h => ?_, fun h hb => ?_, fun h hb => ?_⟩
  · rw [get_best_move_state, if_pos h]
  · rw [get_best_move_state, if_neg (by simp [h]), if_pos hb]
  · rw [get_best_move_state, if_neg (by simp [h]), if_neg hb,
      restore_snapshot]

/-- Witness for C1 (amended) at concrete states: the opening-book path
increments only `turn_count`; a mid-game call restores everything but
`last_possession_team`; a call out of turn changes nothing. -/
theorem c1_get_best_move_frame_witness :
    get_best_move_state g_ex Team.LEFT true =
        { g_ex with turn_count := 1 } ∧
      get_best_move_state { g_ex with turn_count := 5 } Team.LEFT true =
        { g_ex with turn_count := 5 } ∧
      get_best_move_state g_ex Team.RIGHT true = g_ex :=
  ⟨(c1_get_best_move_frame g_ex Team.LEFT true).2.1 rfl
      ⟨rfl, rfl, rfl⟩,
    (c1_get_best_move_frame { g_ex with turn_count := 5 } Team.LEFT
        true).2.2 rfl (by simp),
    (c1_get_best_move_frame g_ex Team.RIGHT true).1 (by decide)⟩

/-- Heap update at `t` reads back the written object. -/
theorem wset_self (w : World) (t : Nat) (o : Obj) : wset w t o t = o := by
  unfold wset
  simp

/-- Heap update at `t` leaves every other tag unchanged. -/
theorem wset_ne (w : World) (t : Nat) (o : Obj) (x : Nat) (h : x ≠ t) :
    wset w t o x = w x := by
  unfold wset
  simp [h]

/-- Reading a ball only depends on the heap at the ball's tag and its
position tag. -/
theorem readBall_agree (w w' : World) (t : Nat) (h1 : w' t = w t)
    (h2 : ∀ u ∈ posTagOf w t, w' u = w u) :
    readBall w' t = readBall w t := by
  unfold readBall
  rw [h1]
  cases hw : w t with
  | ballO pt =>
      have hpt : w' pt = w pt := by
        refine h2 pt ?_
        unfold posTagOf
        rw [hw]
        exact List.mem_singleton.mpr rfl
      simp [readPos, hpt]
  | posO r c => rfl
  | playerO pt team pid gk => rfl
  | noneO => rfl

/-- Reading a player only depends on the heap at the player's tag and its
position tag. -/
theorem readPlayer_agree (w w' : World) (t : Nat) (h1 : w' t = w t)
    (h2 : ∀ u ∈ posTagOf w t, w' u = w u) :
    readPlayer w' t = readPlayer w t := by
  unfold readPlayer
  rw [h1]
  cases hw : w t with
  | playerO pt team pid gk =>
      have hpt : w' pt = w pt := by
        refine h2 pt ?_
        unfold posTagOf
        rw [hw]
        exact List.mem_singleton.mpr rfl
      simp [readPos, hpt]
  | posO r c => rfl
  | ballO pt => rfl
  | noneO => rfl

/-- Pointwise-equal reads give equal `mapM` results. -/
theorem mapM_readPlayer_agree (w w' : World) :
    ∀ ts : List Nat, (∀ t ∈ ts, readPlayer w' t = readPlayer w t) →
      ts.mapM (readPlayer w') = ts.mapM (readPlayer w) := by
  intro ts
  induction ts with
  | nil => intro _; rfl
  | cons t ts ih =>
      intro h
      rw [List.mapM_cons, List.mapM_cons, h t (List.mem_cons_self _ _),
        ih (fun x hx => h x (List.mem_cons_of_mem _ hx))]

/-- The observable value of a game only depends on the heap at the game's
footprint: two heaps agreeing there give the same snapshot. -/
theorem snapshotH_agree (w w' : World) (g : HGame)
    (h : ∀ t ∈ tagsOf w g, w' t = w t) :
    snapshotH w' g = snapshotH w g := by
  have hball : readBall w' g.ballTag = readBall w g.ballTag := by
    refine readBall_agree w w' g.ballTag (h _ ?_) (fun u hu => h u ?_)
    · unfold tagsOf
      simp
    · unfold tagsOf
      simp [hu]
  have hps : g.playerTags.mapM (readPlayer w') =
      g.playerTags.mapM (readPlayer w) := by
    refine mapM_readPlayer_agree w w' g.playerTags (fun t ht => ?_)
    refine readPlayer_agree w w' t (h t ?_) (fun u hu => h u ?_)
    · unfold tagsOf
      rw [List.mem_append, List.mem_flatMap]
      exact Or.inr ⟨t, ht, List.mem_cons_self _ _⟩
    · unfold tagsOf
      rw [List.mem_append, List.mem_flatMap]
      exact Or.inr ⟨t, ht, List.mem_cons_of_mem _ hu⟩
  unfold snapshotH
  rw [hball, hps]

/-- Unfolding of the player-cloning loop on a cons. -/
theorem allocPlayers_cons (w : World) (p : PlayerS) (ps : List PlayerS)
    (fresh : Nat) :
    allocPlayers w (p :: ps) fresh =
      ((allocPlayers (wset (wset w fresh (.posO p.pos.row p.pos.col))
          (fresh + 1) (.playerO fresh p.team p.pid p.gk)) ps (fresh + 2)).1,
        (fresh + 1) :: (allocPlayers (wset (wset w fresh
          (.posO p.pos.row p.pos.col)) (fresh + 1)
          (.playerO fresh p.team p.pid p.gk)) ps (fresh + 2)).2.1,
        (allocPlayers (wset (wset w fresh (.posO p.pos.row p.pos.col))
          (fresh + 1) (.playerO fresh p.team p.pid p.gk)) ps
          (fresh + 2)).2.2) := rfl

/-- The player-cloning loop of `clone_game` only writes at tags at or
above `fresh`, its new player tags all lie at or above `fresh`, reading
the new tags back yields exactly the cloned players, and the position
tags held by the new players also lie at or above `fresh`. -/
theorem allocPlayers_spec (ps : List PlayerS) :
    ∀ (w : World) (fresh : Nat),
      (∀ t, t < fresh → (allocPlayers w ps fresh).1 t = w t) ∧
      (∀ t ∈ (allocPlayers w ps fresh).2.1, fresh ≤ t) ∧
      ((allocPlayers w ps fresh).2.1.mapM
        (readPlayer (allocPlayers w ps fresh).1) = some ps) ∧
      (∀ t ∈ (allocPlayers w ps fresh).2.1,
        ∀ u ∈ posTagOf (allocPlayers w ps fresh).1 t, fresh ≤ u) := by
  induction ps with
  | nil =>
      intro w fresh
      exact ⟨fun t _ => rfl, by simp [allocPlayers], rfl,
        by simp [allocPlayers]⟩
  | cons p ps ih =>
      intro w fresh
      rw [allocPlayers_cons]
      set w1 := wset (wset w fresh (.posO p.pos.row p.pos.col)) (fresh + 1)
        (.playerO fresh p.team p.pid p.gk) with hw1
      obtain ⟨iha, ihb, ihc, ihd⟩ := ih w1 (fresh + 2)
      have hw1p : (allocPlayers w1 ps (fresh + 2)).1 (fresh + 1) =
          Obj.playerO fresh p.team p.pid p.gk := by
        rw [iha (fresh + 1) (by omega), hw1, wset_self]
      have hw1pos : (allocPlayers w1 ps (fresh + 2)).1 fresh =
          Obj.posO p.pos.row p.pos.col := by
        rw [iha fresh (by omega), hw1, wset_ne _ _ _ _ (by omega), wset_self]
      refine ⟨fun t ht => ?_, fun t ht => ?_, ?_, fun t ht u hu => ?_⟩
      · rw [iha t (by omega), hw1, wset_ne _ _ _ _ (by omega),
          wset_ne _ _ _ _ (by omega)]
      · rcases List.mem_cons.mp ht with rfl | ht'
        · omega
        · have := ihb t ht'
          omega
      · rw [List.mapM_cons]
        have hread : readPlayer (allocPlayers w1 ps (fresh + 2)).1
            (fresh + 1) = some p := by
          unfold readPlayer
          rw [hw1p]
          dsimp only
          unfold readPos
          rw [hw1pos]
          rfl
        rw [hread, ihc]
        rfl
      · rcases List.mem_cons.mp ht with rfl | ht'
        · unfold posTagOf at hu
          rw [hw1p] at hu
          rw [List.mem_singleton] at hu
          omega
        · have := ihd t ht' u hu
          omega

/-- Unfolding of `clone_gameH` on a readable game. -/
theorem clone_gameH_eq (w : World) (g : HGame) (fresh : Nat) (s : GameS)
    (hs : snapshotH w g = some s) :
    clone_gameH w g fresh =
      some ((allocPlayers (wset (wset w fresh (.posO s.ball.row s.ball.col))
          (fresh + 1) (.ballO fresh)) s.players (fresh + 2)).1,
        { level := s.level
          LEFT_goals := s.LEFT_goals
          RIGHT_goals := s.RIGHT_goals
          current_team := s.current_team
          last_possession_team := s.last_possession_team
          passes_count := s.passes_count
          turn_count := s.turn_count
          skip_next_turn := s.skip_next_turn
          ballTag := fresh + 1
          playerTags := (allocPlayers (wset (wset w fresh
            (.posO s.ball.row s.ball.col)) (fresh + 1) (.ballO fresh))
            s.players (fresh + 2)).2.1 }) := by
  unfold clone_gameH
  rw [hs]

/-- C6: `clone_game` returns a new game observably equal to the original
on every field of the claim, built exclusively from freshly allocated
ball, player and position objects, so its heap footprint is disjoint from
the original's and any subsequent mutation of the clone's objects leaves
the original's observable value unchanged (and the cloning itself already
left it unchanged). -/
theorem c6_clone_game (w : World) (g : HGame) (s : GameS) (fresh : Nat)
    (hs : snapshotH w g = some s)
    (hfresh : ∀ t ∈ tagsOf w g, t < fresh) :
    ∃ w' g', clone_gameH w g fresh = some (w', g') ∧
      snapshotH w' g' = some s ∧
      snapshotH w' g = some s ∧
      (∀ t ∈ tagsOf w' g', t ∉ tagsOf w g) ∧
      (∀ t ∈ tagsOf w' g', ∀ o, snapshotH (wset w' t o) g = some s) := by
  obtain ⟨iha, ihb, ihc, ihd⟩ := allocPlayers_spec s.players
    (wset (wset w fresh (.posO s.ball.row s.ball.col)) (fresh + 1)
      (.ballO fresh)) (fresh + 2)
  set w1 := wset (wset w fresh (.posO s.ball.row s.ball.col)) (fresh + 1)
    (.ballO fresh) with hw1def
  set w' := (allocPlayers w1 s.players (fresh + 2)).1 with hwalloc
  set pts := (allocPlayers w1 s.players (fresh + 2)).2.1 with hptseq
  set g' : HGame :=
    { level := s.level
      LEFT_goals := s.LEFT_goals
      RIGHT_goals := s.RIGHT_goals
      current_team := s.current_team
      last_possession_team := s.last_possession_team
      passes_count := s.passes_count
      turn_count := s.turn_count
      skip_next_turn := s.skip_next_turn
      ballTag := fresh + 1
      playerTags := pts } with hgclone
  have hF1 : ∀ t, t < fresh → w' t = w t := by
    intro t ht
    rw [iha t (by omega), hw1def, wset_ne _ _ _ _ (by omega),
      wset_ne _ _ _ _ (by omega)]
  have hagree : ∀ t ∈ tagsOf w g, w' t = w t := fun t ht =>
    hF1 t (hfresh t ht)
  have hsnapg : snapshotH w' g = some s :=
    (snapshotH_agree w w' g hagree).trans hs
  have hball1 : w' (fresh + 1) = Obj.ballO fresh := by
    rw [iha (fresh + 1) (by omega), hw1def, wset_self]
  have hball0 : w' fresh = Obj.posO s.ball.row s.ball.col := by
    rw [iha fresh (by omega), hw1def, wset_ne _ _ _ _ (by omega),
      wset_self]
  have hreadball : readBall w' (fresh + 1) = some s.ball := by
    unfold readBall
    rw [hball1]
    dsimp only
    unfold readPos
    rw [hball0]
  have hsnapg' : snapshotH w' g' = some s := by
    unfold snapshotH
    rw [hgclone]
    dsimp only
    rw [hreadball]
    show ((pts.mapM (readPlayer w')).bind fun ps => some _) = some s
    rw [ihc]
    rfl
  have htags' : ∀ t ∈ tagsOf w' g', fresh ≤ t := by
    intro t ht
    unfold tagsOf at ht
    rw [List.mem_append] at ht
    rcases ht with ht | ht
    · rw [hgclone] at ht
      dsimp only at ht
      rcases List.mem_cons.mp ht with rfl | ht
      · omega
      · unfold posTagOf at ht
        rw [hball1] at ht
        rw [List.mem_singleton] at ht
        omega
    · rw [List.mem_flatMap] at ht
      obtain ⟨u, hu, htu⟩ := ht
      rw [hgclone] at hu
      dsimp only at hu
      rcases List.mem_cons.mp htu with rfl | htu
      · have := ihb t hu
        omega
      · have := ihd u hu t htu
        omega
  refine ⟨w', g', ?_, hsnapg', hsnapg, fun t ht hmem => ?_, fun t ht o => ?_⟩
  · rw [clone_gameH_eq w g fresh s hs]
  · have h1 := htags' t ht
    have h2 := hfresh t hmem
    omega
  · have h1 := htags' t ht
    have hagree2 : ∀ x ∈ tagsOf w g, (wset w' t o) x = w x := by
      intro x hx
      have hxf := hfresh x hx
      rw [wset_ne _ _ _ _ (by omega)]
      exact hagree x hx
    exact (snapshotH_agree w (wset w' t o) g hagree2).trans hs

/-- Witness for C6 on the concrete heap `w_ex`: the clone of `hg_ex` at
fresh tags is observably equal to the original, and the original still
reads back unchanged afterwards. -/
theorem c6_clone_game_witness :
    ∃ w' g', clone_gameH w_ex hg_ex 4 = some (w', g') ∧
      snapshotH w' g' = some gs_ex ∧ snapshotH w' hg_ex = some gs_ex := by
  obtain ⟨w', g', h1, h2, h3, _, _⟩ :=
    c6_clone_game w_ex hg_ex gs_ex 4 (by decide) (by decide)
  exact ⟨w', g', h1, h2, h3⟩
